import Mathlib

/-!
Verification of the duplicate-file detector/mover
(`find_duplicate_files.py`): a shallow embedding of its path handling,
content fingerprinting, scanning, duplicate selection and relocation
logic, together with theorems settling the specified properties.

Modelling conventions:
* A filesystem path is a list of name components of an absolute path
  (the root is implicit).  `Path.resolve()` is modelled as lexical
  normalisation of "." and ".." components; symbolic links are modelled
  only as a per-file flag (the scanner rejects them before reading).
* File contents are byte lists (`List Nat`, each byte < 256).
* The filesystem is a list of regular-file entries (directories are
  implicit as path prefixes) plus a writability flag for the
  destination root.
* `shutil.move` follows its documented POSIX semantics: moving onto an
  existing directory places the file inside it (failing if that inner
  path exists); moving onto anything else is `os.rename`, which
  silently replaces an existing file.
-/

namespace FindDup

/-- One component of a path. -/
abbrev Comp := String

/-- An absolute filesystem path, as its list of components. -/
abbrev FPath := List Comp

/-- A byte string. -/
abbrev Bytes := List Nat

/-- Lexical normalisation worker: processes the remaining components
against an accumulator of already-normalised leading components. -/
def resolveAux (acc : FPath) : FPath → FPath
  | [] => acc
  | c :: cs =>
    if c = "." then resolveAux acc cs
    else if c = ".." then resolveAux acc.dropLast cs
    else resolveAux (acc ++ [c]) cs

/-- Embedding of `Path(p).resolve()`: normalise "." and ".."
components ("`..`" at the root stays at the root, as on POSIX). -/
def resolvePath (p : FPath) : FPath := resolveAux [] p

/-- Embedding of `is_safe_path(file_path, base_path)` from the source:
`file_path.resolve().relative_to(base_path.resolve())` succeeds exactly
when the resolved base is a component-wise prefix of the resolved file
path. -/
def is_safe_path (file_path base_path : FPath) : Bool :=
  (resolvePath base_path).isPrefixOf (resolvePath file_path)

/-- A path component is clean when it is not a "." or ".." segment. -/
@[reducible] def cleanComp (c : Comp) : Prop := c ≠ "." ∧ c ≠ ".."

/-- A path is clean when all its components are. -/
@[reducible] def cleanPath (p : FPath) : Prop := ∀ c ∈ p, cleanComp c

section Sha256

/-- Truncated 32-bit addition. -/
def add32 (a b : Nat) : Nat := (a + b) % 4294967296

/-- 32-bit right rotation. -/
def rotr (n x : Nat) : Nat :=
  ((x >>> n) ||| (x <<< (32 - n))) % 4294967296

/-- Logical right shift. -/
def shr (n x : Nat) : Nat := x >>> n

/-- SHA-256 Ch function. -/
def ch (e f g : Nat) : Nat := (e &&& f) ^^^ ((e ^^^ 4294967295) &&& g)

/-- SHA-256 Maj function. -/
def maj (a b c : Nat) : Nat := (a &&& b) ^^^ (a &&& c) ^^^ (b &&& c)

/-- SHA-256 Σ0. -/
def bigSigma0 (x : Nat) : Nat := rotr 2 x ^^^ rotr 13 x ^^^ rotr 22 x

/-- SHA-256 Σ1. -/
def bigSigma1 (x : Nat) : Nat := rotr 6 x ^^^ rotr 11 x ^^^ rotr 25 x

/-- SHA-256 σ0. -/
def smallSigma0 (x : Nat) : Nat := rotr 7 x ^^^ rotr 18 x ^^^ shr 3 x

/-- SHA-256 σ1. -/
def smallSigma1 (x : Nat) : Nat := rotr 17 x ^^^ rotr 19 x ^^^ shr 10 x

/-- The SHA-256 round constants. -/
def roundK : List Nat :=
  [1116352408, 1899447441, 3049323471, 3921009573, 961987163,
   1508970993, 2453635748, 2870763221, 3624381080, 310598401,
   607225278, 1426881987, 1925078388, 2162078206, 2614888103,
   3248222580, 3835390401, 4022224774, 264347078, 604807628,
   770255983, 1249150122, 1555081692, 1996064986, 2554220882,
   2821834349, 2952996808, 3210313671, 3336571891, 3584528711,
   113926993, 338241895, 666307205, 773529912, 1294757372,
   1396182291, 1695183700, 1986661051, 2177026350, 2456956037,
   2730485921, 2820302411, 3259730800, 3345764771, 3516065817,
   3600352804, 4094571909, 275423344, 430227734, 506948616,
   659060556, 883997877, 958139571, 1322822218, 1537002063,
   1747873779, 1955562222, 2024104815, 2227730452, 2361852424,
   2428436474, 2756734187, 3204031479, 3329325298]

/-- The SHA-256 initial hash value. -/
def initH : List Nat :=
  [1779033703, 3144134277, 1013904242, 2773480762, 1359893119,
   2600822924, 528734635, 1541459225]

/-- `n` big-endian bytes of a number. -/
def toBytesBE : Nat → Nat → Bytes
  | 0, _ => []
  | n + 1, v => toBytesBE n (v / 256) ++ [v % 256]

/-- SHA-256 padding: 0x80, zeros, then the 8-byte bit length. -/
def padMessage (msg : Bytes) : Bytes :=
  msg ++ [0x80] ++ List.replicate ((119 - msg.length % 64) % 64) 0
      ++ toBytesBE 8 (msg.length * 8)

/-- Chunk-splitting worker, structurally recursive on a fuel bound. -/
def chunksOfAux (n : Nat) : Nat → Bytes → List Bytes
  | 0, _ => []
  | _ + 1, [] => []
  | fuel + 1, l => l.take n :: chunksOfAux n fuel (l.drop n)

/-- Split a list into chunks of `n` elements (last may be shorter).
For positive `n` a fuel of the list's length always suffices. -/
def chunksOf (n : Nat) (l : Bytes) : List Bytes :=
  chunksOfAux n l.length l

/-- Big-endian 32-bit words of a byte string. -/
def bytesToWordsBE : Bytes → List Nat
  | b0 :: b1 :: b2 :: b3 :: rest =>
      (((b0 * 256 + b1) * 256 + b2) * 256 + b3) :: bytesToWordsBE rest
  | _ => []

/-- Extend the 16-word block to the 64-word message schedule. -/
def buildSchedule (ws : List Nat) : List Nat :=
  (List.range 48).foldl
    (fun acc _ =>
      let n := acc.length
      acc ++ [add32 (add32 (smallSigma1 (acc.getD (n - 2) 0)) (acc.getD (n - 7) 0))
                    (add32 (smallSigma0 (acc.getD (n - 15) 0)) (acc.getD (n - 16) 0))])
    ws

/-- One round of the SHA-256 compression function. -/
def compressRound (state : List Nat) (kw : Nat × Nat) : List Nat :=
  match state with
  | [a, b, c, d, e, f, g, hh] =>
      let t1 := add32 hh (add32 (bigSigma1 e) (add32 (ch e f g) (add32 kw.1 kw.2)))
      let t2 := add32 (bigSigma0 a) (maj a b c)
      [add32 t1 t2, a, b, c, add32 d t1, e, f, g]
  | s => s

/-- Process one 64-byte block. -/
def processBlock (h : List Nat) (block : Bytes) : List Nat :=
  let w := buildSchedule (bytesToWordsBE block)
  let fin := (roundK.zip w).foldl compressRound h
  (h.zip fin).map (fun p => add32 p.1 p.2)

/-- SHA-256 of a byte string, as eight 32-bit words. -/
def sha256 (msg : Bytes) : List Nat :=
  (chunksOf 64 (padMessage msg)).foldl processBlock initH

/-- A hexadecimal digit character (lowercase). -/
def hexDigit (n : Nat) : Char :=
  if n < 10 then Char.ofNat (48 + n) else Char.ofNat (87 + n)

/-- Eight lowercase hex digits of a 32-bit word. -/
def wordToHex (w : Nat) : List Char :=
  [hexDigit ((w >>> 28) % 16), hexDigit ((w >>> 24) % 16),
   hexDigit ((w >>> 20) % 16), hexDigit ((w >>> 16) % 16),
   hexDigit ((w >>> 12) % 16), hexDigit ((w >>> 8) % 16),
   hexDigit ((w >>> 4) % 16), hexDigit (w % 16)]

/-- The hex digest characters of a byte string. -/
def sha256hexChars (msg : Bytes) : List Char :=
  ((sha256 msg).map wordToHex).flatten

/-- `hashlib.sha256(data).hexdigest()`: the digest as a lowercase hex
string. -/
def sha256hex (msg : Bytes) : String :=
  String.mk (sha256hexChars msg)

/-- The incremental hasher object: `hashlib.sha256()` accumulates the
bytes fed to `update`. -/
structure Hasher where
  data : Bytes
deriving Repr, DecidableEq

/-- `hasher.update(chunk)`. -/
def Hasher.update (h : Hasher) (chunk : Bytes) : Hasher :=
  ⟨h.data ++ chunk⟩

/-- `hasher.hexdigest()`. -/
def Hasher.hexdigest (h : Hasher) : String := sha256hex h.data

/-- Embedding of `hash_file(path)`: read the file's content in 8192-byte
chunks, feeding each to the hasher, and return the hex digest.  The
argument is the byte content the open file yields. -/
def hash_file (content : Bytes) : String :=
  ((chunksOf 8192 content).foldl Hasher.update ⟨[]⟩).hexdigest

end Sha256

section Model

/-- A regular-file (or symbolic-link) entry of the modelled filesystem.
`readable` is false when opening/reading the file raises `OSError`;
`size` and `mtime` are the `stat` results. -/
structure FileEnt where
  path : FPath
  isLink : Bool
  readable : Bool
  content : Bytes
  size : Nat
  mtime : Int
deriving Repr, DecidableEq

/-- The filesystem: a list of file entries (directories are implicit)
plus the write-permission bit of the destination root. -/
structure FS where
  files : List FileEnt
  destWritable : Bool
deriving Repr, DecidableEq

/-- Look up the entry at a path. -/
def FS.lookup (fs : FS) (p : FPath) : Option FileEnt :=
  fs.files.find? (fun e => e.path = p)

/-- `file_path.stat()` and `hash_file` results bundled, as the dict
returned by `get_file_info`. -/
structure FileInfo where
  size : Nat
  mtime : Int
  hash : String
deriving Repr, DecidableEq

/-- Embedding of `get_file_info(file_path)`: reject symbolic links with
`OSError` before any read; a failing `stat`/read also raises `OSError`;
otherwise return size, mtime and the content hash. -/
def get_file_info (e : FileEnt) : Except String FileInfo :=
  if e.isLink then .error "Skipping symbolic link"
  else if ¬ e.readable then .error "read error"
  else .ok ⟨e.size, e.mtime, hash_file e.content⟩

/-- One row of the CSV audit log (timestamp omitted: the model is
deterministic). -/
structure CsvRow where
  operation : String
  original_path : FPath
  destination_path : Option FPath
  file_hash : String
  file_size : Nat
  modification_time : Int
  status : String
  error_message : String
deriving Repr, DecidableEq

/-- The ordered hash-to-paths index (a Python dict preserving insertion
order). -/
abbrev Index := List (String × List FPath)

/-- Append a path to the group of a key, creating the group at the end
when the key is new (dict insertion-order semantics). -/
def addToGroups : Index → String → FPath → Index
  | [], k, p => [(k, [p])]
  | (k', l) :: rest, k, p =>
    if k' = k then (k', l ++ [p]) :: rest
    else (k', l) :: addToGroups rest k p

/-- The list a key maps to (empty when absent). -/
def lookupGroup : Index → String → List FPath
  | [], _ => []
  | g :: gs, k => if g.1 = k then g.2 else lookupGroup gs k

/-- The state threaded through the scan loop of `get_files`: the index
under construction, the CSV rows written, the console warnings issued
(each identified by the offending path), and the paths whose content
the scan opened for hashing. -/
structure ScanResult where
  groups : Index
  log : List CsvRow
  warnings : List FPath
  reads : List FPath
deriving Repr, DecidableEq

/-- The empty scan state. -/
def scanInit : ScanResult := ⟨[], [], [], []⟩

/-- CSV row for a successfully processed file. -/
def procRow (p : FPath) (info : FileInfo) : CsvRow :=
  ⟨"processed", p, none, info.hash, info.size, info.mtime, "success", ""⟩

/-- CSV row for a failed per-file processing. -/
def procErrRow (p : FPath) (msg : String) : CsvRow :=
  ⟨"processed", p, none, "", 0, 0, "error", msg⟩

/-- The body of the scan loop of `get_files`, for one walked file:
skip (with a warning) files not contained in the source root, skip
silently files contained in the destination root, otherwise fingerprint
and either extend the index (logging success) or record the per-file
failure and continue. -/
def scanStep (source dest : FPath) (csv : Bool) (st : ScanResult) (e : FileEnt) :
    ScanResult :=
  if ¬ is_safe_path e.path source then
    { st with warnings := st.warnings ++ [e.path] }
  else if is_safe_path e.path dest then st
  else
    let opened := if e.isLink then [] else [e.path]
    match get_file_info e with
    | .ok info =>
        { st with
            groups := addToGroups st.groups info.hash e.path,
            log := st.log ++ (if csv then [procRow e.path info] else []),
            reads := st.reads ++ opened }
    | .error msg =>
        { st with
            warnings := st.warnings ++ [e.path],
            log := st.log ++ (if csv then [procErrRow e.path msg] else []),
            reads := st.reads ++ opened }

/-- Embedding of `get_files(source_folder, dest_folder, csv_log_path)`:
fold the scan step over the files yielded by the walk (passed
explicitly, as the sequence `os.walk` produces). -/
def get_files (walk : List FileEnt) (source dest : FPath) (csv : Bool) :
    ScanResult :=
  walk.foldl (scanStep source dest csv) scanInit

/-- Embedding of `get_duplicates(files)`: for each group in index
order, append all paths after the first. -/
def get_duplicates (files : Index) : List FPath :=
  files.foldl (fun acc g => if g.2.length > 1 then acc ++ g.2.drop 1 else acc) []

/-- `os.walk(source)` over the modelled filesystem: the entries lying
under the source root, in filesystem order. -/
def walkFS (fs : FS) (source : FPath) : List FileEnt :=
  fs.files.filter (fun e => is_safe_path e.path source)

/-- True when some entry lies strictly below `p`, i.e. `p` names an
existing directory (`os.path.isdir`). -/
def isDirAt (fs : FS) (p : FPath) : Bool :=
  fs.files.any (fun e => p ≠ e.path ∧ p.isPrefixOf e.path)

/-- True when an entry exists exactly at `p`. -/
def existsFile (fs : FS) (p : FPath) : Bool :=
  fs.files.any (fun e => e.path = p)

/-- `shutil.move(src, dst)` (POSIX, same volume): if `dst` is an
existing directory, the real destination is `dst/basename(src)` and an
existing file there is an error; otherwise `os.rename(src, dst)`, which
silently replaces an existing regular file at `dst`.  Returns the new
filesystem and the path actually written. -/
def moveFile (fs : FS) (src dst : FPath) : Except String (FS × FPath) :=
  match fs.lookup src with
  | none => .error "No such file"
  | some e =>
    if isDirAt fs dst then
      let dst' := dst ++ [src.getLastD ""]
      if existsFile fs dst' then
        .error "Destination path already exists"
      else
        .ok (⟨(fs.files.filter (fun e' => e'.path ≠ src ∧ e'.path ≠ dst'))
                ++ [{ e with path := dst' }], fs.destWritable⟩, dst')
    else
      .ok (⟨(fs.files.filter (fun e' => e'.path ≠ src ∧ e'.path ≠ dst))
              ++ [{ e with path := dst }], fs.destWritable⟩, dst)

/-- CSV row for a successful move. -/
def movedRow (src dst : FPath) (h : String) (sz : Nat) (mt : Int) : CsvRow :=
  ⟨"moved", src, some dst, h, sz, mt, "success", ""⟩

/-- CSV row for a failed move. -/
def movedErrRow (src : FPath) (dst : Option FPath) (msg : String) : CsvRow :=
  ⟨"moved", src, dst, "", 0, 0, "error", msg⟩

/-- The state threaded through the move loop of `move_duplicates`:
the evolving filesystem, the CSV rows written, the console warnings
(skipped paths), the source paths read (`stat`/re-hash), and the
(source, written-destination) pairs of the moves performed. -/
structure MoveState where
  fs : FS
  log : List CsvRow
  warnings : List FPath
  reads : List FPath
  moves : List (FPath × FPath)
deriving Repr, DecidableEq

/-- The initial move-loop state over a filesystem. -/
def moveInit (fs : FS) : MoveState := ⟨fs, [], [], [], []⟩

/-- The body of the move loop of `move_duplicates`, for one duplicate:
resolve it, skip (warning) unless contained in the source root, build
the target under the destination root from the source-relative path,
skip (warning) unless the target is contained in the destination root,
`stat` and best-effort re-hash the file, move it, and record success or
error, continuing either way.  Directory creation (`mkdir(parents)`)
only materialises implicit directories and is not modelled as a file
write. -/
def moveStep (source_path dest_path : FPath) (csv : Bool)
    (st : MoveState) (d : FPath) : MoveState :=
  let file_path := resolvePath d
  if ¬ is_safe_path file_path source_path then
    { st with warnings := st.warnings ++ [file_path] }
  else
    let relative_path := file_path.drop source_path.length
    let final_dest := dest_path ++ relative_path
    if ¬ is_safe_path final_dest dest_path then
      { st with warnings := st.warnings ++ [file_path] }
    else
      match st.fs.lookup file_path with
      | none =>
          { st with
              log := st.log ++
                (if csv then [movedErrRow file_path (some final_dest) "stat failed"] else []) }
      | some e =>
          let fhash := if e.readable ∧ ¬ e.isLink then hash_file e.content else ""
          let st := { st with reads := st.reads ++ [file_path] }
          match moveFile st.fs file_path final_dest with
          | .error msg =>
              { st with
                  log := st.log ++
                    (if csv then [movedErrRow file_path (some final_dest) msg] else []) }
          | .ok (fs', written) =>
              { st with
                  fs := fs',
                  log := st.log ++
                    (if csv then [movedRow file_path written fhash e.size e.mtime] else []),
                  moves := st.moves ++ [(file_path, written)] }

/-- Embedding of `move_duplicates(duplicates, source_folder,
dest_folder, csv_log_path)`: resolve both roots, fail with
`PermissionError` when the destination root is not writable (checked
once, before the loop), then process every duplicate in order. -/
def move_duplicates (fs : FS) (duplicates : List FPath)
    (source_folder dest_folder : FPath) (csv : Bool) :
    Except String MoveState :=
  let source_path := resolvePath source_folder
  let dest_path := resolvePath dest_folder
  if ¬ fs.destWritable then
    .error "No write permission for destination"
  else
    .ok (duplicates.foldl (moveStep source_path dest_path csv) (moveInit fs))

/-- The outcome of one full run of `main`: the final filesystem, the
selected duplicates, the exit code, the scan result and the move log. -/
structure RunResult where
  fs : FS
  duplicates : List FPath
  exitCode : Nat
  scan : ScanResult
  moveLog : List CsvRow
deriving Repr, DecidableEq

/-- Embedding of the `main` pipeline: scan, select duplicates, return
early when none, otherwise move them; a `PermissionError` exits with
code 1. -/
def run_pipeline (fs : FS) (source dest : FPath) (csv : Bool) : RunResult :=
  let scan := get_files (walkFS fs source) source dest csv
  let dups := get_duplicates scan.groups
  if dups.isEmpty then ⟨fs, dups, 0, scan, []⟩
  else
    match move_duplicates fs dups source dest csv with
    | .error _ => ⟨fs, dups, 1, scan, []⟩
    | .ok out => ⟨out.fs, dups, 0, scan, out.log⟩

/-- A file entry is eligible for indexing by the scan: contained in the
source root, not contained in the destination root, not a symbolic
link, and readable. -/
def eligible (source dest : FPath) (e : FileEnt) : Bool :=
  is_safe_path e.path source && !is_safe_path e.path dest
    && !e.isLink && e.readable

/-- The CSV rows the scan loop emits for one walked file (the log does
not depend on the accumulated state). -/
def scanRowsFor (source dest : FPath) (csv : Bool) (e : FileEnt) : List CsvRow :=
  if ¬ is_safe_path e.path source then []
  else if is_safe_path e.path dest then []
  else match get_file_info e with
    | .ok info => if csv then [procRow e.path info] else []
    | .error msg => if csv then [procErrRow e.path msg] else []

/-- The console warnings the scan loop emits for one walked file. -/
def scanWarnFor (source dest : FPath) (e : FileEnt) : List FPath :=
  if ¬ is_safe_path e.path source then [e.path]
  else if is_safe_path e.path dest then []
  else match get_file_info e with
    | .ok _ => []
    | .error _ => [e.path]

/-- The content reads the scan loop performs for one walked file. -/
def scanReadsFor (source dest : FPath) (e : FileEnt) : List FPath :=
  if ¬ is_safe_path e.path source then []
  else if is_safe_path e.path dest then []
  else if e.isLink then [] else [e.path]

/-- The index transformation of the scan loop for one walked file. -/
def gStep (source dest : FPath) (gs : Index) (e : FileEnt) : Index :=
  if ¬ is_safe_path e.path source then gs
  else if is_safe_path e.path dest then gs
  else match get_file_info e with
    | .ok info => addToGroups gs info.hash e.path
    | .error _ => gs

/-- All paths appearing in the groups of an index. -/
def allPaths (gs : Index) : List FPath :=
  (gs.map (fun g => g.2)).flatten

/-- The relocation target of an (already resolved) duplicate path,
given the resolved source and destination roots: the destination root
extended by the source-relative path. -/
def targetOf (sp dp p : FPath) : FPath := dp ++ p.drop sp.length

/-- Both per-duplicate containment checks of the move loop, on an
already resolved duplicate path. -/
def moveChecks (sp dp : FPath) (p : FPath) : Bool :=
  is_safe_path p sp && is_safe_path (targetOf sp dp p) dp

/-- A file entry after relocation to its target. -/
def movedEnt (sp dp : FPath) (e : FileEnt) : FileEnt :=
  { e with path := targetOf sp dp e.path }

/-- The entry a duplicate path of the original filesystem ends up as
after relocation (the fallback is never reached when the path names an
entry). -/
def relocEnt (fs0 : FS) (sp dp : FPath) (d : FPath) : FileEnt :=
  match fs0.lookup d with
  | some e => movedEnt sp dp e
  | none => ⟨d, false, false, [], 0, 0⟩

/-- Well-formedness of the modelled filesystem: entry paths are
canonical, pairwise distinct, and no regular file lies at a proper
prefix of another (a path cannot be both a file and a directory). -/
@[reducible] def FS.WF (fs : FS) : Prop :=
  (∀ e ∈ fs.files, cleanPath e.path)
    ∧ (fs.files.map (fun e => e.path)).Nodup
    ∧ ∀ e1 ∈ fs.files, ∀ e2 ∈ fs.files,
        e1.path.isPrefixOf e2.path = true → e1.path = e2.path

/-- The destination root contains no file yet. -/
@[reducible] def destEmpty (fs : FS) (dest : FPath) : Prop :=
  ∀ e ∈ fs.files, ¬ (resolvePath dest).isPrefixOf e.path = true

/-- Lowercase hexadecimal digit characters. -/
def isHexLowerChar (c : Char) : Bool :=
  decide (('0' ≤ c ∧ c ≤ '9') ∨ ('a' ≤ c ∧ c ≤ 'f'))

/-- Concrete index used to exercise duplicate selection. -/
def fxIndex : Index :=
  [("h1", [["s", "a"], ["s", "b"], ["s", "c"]]), ("h2", [["s", "d"]])]

/-- Concrete filesystem with a pre-existing file at the relocation
target of the only duplicate. -/
def fxCollide : FS :=
  ⟨[⟨["src", "b"], false, true, [1, 2], 2, 0⟩,
    ⟨["dst", "b"], false, true, [9], 1, 0⟩], true⟩

/-- Concrete filesystem with one regular file. -/
def fxOne : FS := ⟨[⟨["s", "x"], false, true, [7], 1, 0⟩], true⟩

/-- Concrete filesystem with two identical files and one distinct file. -/
def fxTriple : FS :=
  ⟨[⟨["src", "a"], false, true, [1], 1, 0⟩,
    ⟨["src", "b"], false, true, [1], 1, 0⟩,
    ⟨["src", "c"], false, true, [2], 1, 0⟩], true⟩

/-- Two concrete entries with equal content but different paths, sizes
and timestamps. -/
def fxEnt1 : FileEnt := ⟨["a"], false, true, [5], 9, 3⟩

/-- See `fxEnt1`. -/
def fxEnt2 : FileEnt := ⟨["b", "c"], false, true, [5], 1, 7⟩

/-- Concrete good file scanned before a bad one. -/
def fxPre : FileEnt := ⟨["s", "a"], false, true, [1], 1, 0⟩

/-- Concrete symbolic link in the source tree. -/
def fxLink : FileEnt := ⟨["s", "ln"], true, true, [2], 1, 0⟩

/-- Concrete good file scanned after a bad one. -/
def fxPost : FileEnt := ⟨["s", "b"], false, true, [1], 1, 0⟩

/-- Concrete filesystem containing a symbolic link. -/
def fxLinkFS : FS :=
  ⟨[⟨["s", "ln"], true, true, [3], 1, 0⟩,
    ⟨["s", "a"], false, true, [1], 1, 0⟩], true⟩

/-- Concrete filesystem with duplicates but an unwritable destination. -/
def fxReadOnly : FS :=
  ⟨[⟨["s", "a"], false, true, [1], 1, 0⟩,
    ⟨["s", "b"], false, true, [1], 1, 0⟩], false⟩

/-- Concrete zero-byte file. -/
def fxEmptyFile : FileEnt := ⟨["s", "z"], false, true, [], 0, 0⟩

end Model

/-! ### Path normalisation lemmas -/

theorem resolveAux_append : ∀ (xs acc ys : FPath),
    resolveAux acc (xs ++ ys) = resolveAux (resolveAux acc xs) ys := by
  intro xs
  induction xs with
  | nil => intro acc ys; rfl
  | cons c cs ih =>
    intro acc ys
    by_cases h1 : c = "."
    · simp [resolveAux, h1, ih]
    · by_cases h2 : c = ".."
      · simp [resolveAux, h1, h2, ih]
      · simp [resolveAux, h1, h2, ih]

theorem resolveAux_clean : ∀ (cs : FPath), cleanPath cs →
    ∀ acc, resolveAux acc cs = acc ++ cs := by
  intro cs
  induction cs with
  | nil => intro _ acc; simp [resolveAux]
  | cons c cs ih =>
    intro h acc
    obtain ⟨hc1, hc2⟩ := h c (List.mem_cons_self c cs)
    have hcs : cleanPath cs := fun x hx => h x (List.mem_cons_of_mem _ hx)
    simp [resolveAux, hc1, hc2, ih hcs]

theorem resolvePath_of_clean {p : FPath} (h : cleanPath p) : resolvePath p = p := by
  simpa using resolveAux_clean p h []

theorem cleanPath_resolveAux : ∀ (cs acc : FPath), cleanPath acc →
    cleanPath (resolveAux acc cs) := by
  intro cs
  induction cs with
  | nil => intro acc h; exact h
  | cons c cs ih =>
    intro acc h
    by_cases h1 : c = "."
    · simpa [resolveAux, h1] using ih _ h
    · by_cases h2 : c = ".."
      · simpa [resolveAux, h1, h2] using ih _ (fun x hx => h x (List.dropLast_subset _ hx))
      · simp only [resolveAux, h1, h2, if_false]
        refine ih _ ?_
        intro x hx
        rcases List.mem_append.mp hx with h' | h'
        · exact h x h'
        · rw [List.mem_singleton] at h'
          subst h'
          exact ⟨h1, h2⟩

theorem cleanPath_resolvePath (p : FPath) : cleanPath (resolvePath p) :=
  cleanPath_resolveAux p [] (by intro c hc; cases hc)

theorem resolvePath_idem (p : FPath) : resolvePath (resolvePath p) = resolvePath p :=
  resolvePath_of_clean (cleanPath_resolvePath p)

theorem cleanPath_append {p q : FPath} (hp : cleanPath p) (hq : cleanPath q) :
    cleanPath (p ++ q) := by
  intro c hc
  rcases List.mem_append.mp hc with h | h
  · exact hp c h
  · exact hq c h

theorem cleanPath_drop {p : FPath} (hp : cleanPath p) (n : Nat) :
    cleanPath (p.drop n) :=
  fun c hc => hp c ((List.drop_sublist n p).subset hc)

theorem resolvePath_append_single {p : FPath} {b : Comp} (hb : cleanComp b) :
    resolvePath (p ++ [b]) = resolvePath p ++ [b] := by
  rw [resolvePath, resolveAux_append]
  obtain ⟨h1, h2⟩ := hb
  simp [resolveAux, h1, h2, resolvePath]

theorem is_safe_path_iff {f b : FPath} :
    is_safe_path f b = true ↔ resolvePath b <+: resolvePath f := by
  simp [is_safe_path]

theorem is_safe_path_resolve (f b : FPath) :
    is_safe_path (resolvePath f) b = is_safe_path f b := by
  simp [is_safe_path, resolvePath_idem]

theorem is_safe_path_base_resolve (f b : FPath) :
    is_safe_path f (resolvePath b) = is_safe_path f b := by
  simp [is_safe_path, resolvePath_idem]

/-! ### Fingerprint lemmas -/

theorem chunksOfAux_flatten {n : Nat} (hn : 0 < n) :
    ∀ (fuel : Nat) (l : Bytes), l.length ≤ fuel →
      (chunksOfAux n fuel l).flatten = l := by
  intro fuel
  induction fuel with
  | zero =>
    intro l hl
    have : l = [] := List.eq_nil_of_length_eq_zero (Nat.le_zero.mp hl)
    subst this
    rfl
  | succ fuel ih =>
    intro l hl
    cases l with
    | nil => rfl
    | cons x xs =>
      simp only [chunksOfAux, List.flatten_cons]
      have hlen : ((x :: xs).drop n).length ≤ fuel := by
        simp only [List.length_drop, List.length_cons]
        simp only [List.length_cons] at hl
        omega
      rw [ih _ hlen]
      exact List.take_append_drop n (x :: xs)

theorem foldl_update : ∀ (chunks : List Bytes) (h : Hasher),
    (chunks.foldl Hasher.update h).data = h.data ++ chunks.flatten := by
  intro chunks
  induction chunks with
  | nil => intro h; simp
  | cons c cs ih => intro h; simp [ih, Hasher.update]

theorem hash_file_eq (c : Bytes) : hash_file c = sha256hex c := by
  unfold hash_file Hasher.hexdigest
  rw [foldl_update]
  rw [chunksOf, chunksOfAux_flatten (by norm_num) c.length c le_rfl]
  rfl

theorem compressRound_length (s : List Nat) (kw : Nat × Nat) :
    (compressRound s kw).length = s.length := by
  unfold compressRound
  split <;> simp

theorem foldl_compressRound_length : ∀ (ks : List (Nat × Nat)) (s : List Nat),
    ((ks.foldl compressRound s)).length = s.length := by
  intro ks
  induction ks with
  | nil => intro s; rfl
  | cons k ks ih => intro s; rw [List.foldl_cons, ih, compressRound_length]

theorem processBlock_length (h : List Nat) (b : Bytes) (hh : h.length = 8) :
    (processBlock h b).length = 8 := by
  unfold processBlock
  simp [foldl_compressRound_length, hh]

theorem sha256_length (msg : Bytes) : (sha256 msg).length = 8 := by
  unfold sha256
  have main : ∀ (bs : List Bytes) (h : List Nat), h.length = 8 →
      ((bs.foldl processBlock h)).length = 8 := by
    intro bs
    induction bs with
    | nil => intro h hh; exact hh
    | cons b bs ih => intro h hh; exact ih _ (processBlock_length h b hh)
  exact main _ initH rfl

theorem sha256hexChars_length (msg : Bytes) : (sha256hexChars msg).length = 64 := by
  unfold sha256hexChars
  have gen : ∀ ws : List Nat, ((ws.map wordToHex).flatten).length = 8 * ws.length := by
    intro ws
    induction ws with
    | nil => rfl
    | cons w ws ih => simp [wordToHex, ih]; omega
  rw [gen, sha256_length]

theorem hexDigit_isHex {n : Nat} (h : n < 16) : isHexLowerChar (hexDigit n) = true := by
  have all : ∀ m, m < 16 → isHexLowerChar (hexDigit m) = true := by decide
  exact all n h

theorem wordToHex_hex (w : Nat) : ∀ c ∈ wordToHex w, isHexLowerChar c = true := by
  intro c hc
  simp only [wordToHex, List.mem_cons, List.not_mem_nil, or_false] at hc
  rcases hc with h | h | h | h | h | h | h | h <;>
    (subst h; exact hexDigit_isHex (Nat.mod_lt _ (by norm_num)))

theorem sha256hexChars_hex (msg : Bytes) :
    ∀ c ∈ sha256hexChars msg, isHexLowerChar c = true := by
  intro c hc
  unfold sha256hexChars at hc
  rw [List.mem_flatten] at hc
  obtain ⟨l, hl, hcl⟩ := hc
  rw [List.mem_map] at hl
  obtain ⟨w, _, rfl⟩ := hl
  exact wordToHex_hex w c hcl

theorem sha256hex_length (msg : Bytes) : (sha256hex msg).length = 64 := by
  show (sha256hexChars msg).length = 64
  exact sha256hexChars_length msg

theorem sha256hex_toList (msg : Bytes) : (sha256hex msg).toList = sha256hexChars msg := rfl

/-! ### Scan lemmas -/

theorem get_file_info_ok {e : FileEnt} {info : FileInfo} :
    get_file_info e = .ok info ↔
      e.isLink = false ∧ e.readable = true
        ∧ info = ⟨e.size, e.mtime, hash_file e.content⟩ := by
  unfold get_file_info
  by_cases h1 : e.isLink <;> by_cases h2 : e.readable <;>
    simp [h1, h2, eq_comm]

theorem get_file_info_error {e : FileEnt} :
    (e.isLink = true ∨ e.readable = false) ↔ ∃ msg, get_file_info e = .error msg := by
  unfold get_file_info
  by_cases h1 : e.isLink <;> by_cases h2 : e.readable <;> simp [h1, h2]

theorem scanStep_eq (source dest : FPath) (csv : Bool) (st : ScanResult) (e : FileEnt) :
    scanStep source dest csv st e =
      ⟨gStep source dest st.groups e,
       st.log ++ scanRowsFor source dest csv e,
       st.warnings ++ scanWarnFor source dest e,
       st.reads ++ scanReadsFor source dest e⟩ := by
  unfold scanStep gStep scanRowsFor scanWarnFor scanReadsFor
  by_cases h1 : is_safe_path e.path source = true
  · by_cases h2 : is_safe_path e.path dest = true
    · simp [h1, h2]
    · cases hinfo : get_file_info e with
      | ok info =>
        have hlink : e.isLink = false := (get_file_info_ok.mp hinfo).1
        simp [h1, h2, hinfo, hlink]
      | error msg => simp [h1, h2, hinfo]
  · simp [h1]

theorem get_files_fold (source dest : FPath) (csv : Bool) :
    ∀ (walk : List FileEnt) (st : ScanResult),
      walk.foldl (scanStep source dest csv) st =
        ⟨walk.foldl (gStep source dest) st.groups,
         st.log ++ (walk.map (scanRowsFor source dest csv)).flatten,
         st.warnings ++ (walk.map (scanWarnFor source dest)).flatten,
         st.reads ++ (walk.map (scanReadsFor source dest)).flatten⟩ := by
  intro walk
  induction walk with
  | nil => intro st; simp
  | cons e es ih =>
    intro st
    rw [List.foldl_cons, scanStep_eq, ih]
    simp [List.append_assoc]

theorem get_files_eq (walk : List FileEnt) (source dest : FPath) (csv : Bool) :
    get_files walk source dest csv =
      ⟨walk.foldl (gStep source dest) [],
       (walk.map (scanRowsFor source dest csv)).flatten,
       (walk.map (scanWarnFor source dest)).flatten,
       (walk.map (scanReadsFor source dest)).flatten⟩ := by
  unfold get_files scanInit
  rw [get_files_fold]
  simp

theorem gStep_of_eligible {source dest : FPath} {e : FileEnt}
    (h : eligible source dest e = true) (gs : Index) :
    gStep source dest gs e = addToGroups gs (hash_file e.content) e.path := by
  simp only [eligible, Bool.and_eq_true, Bool.not_eq_true'] at h
  obtain ⟨⟨⟨h1, h2⟩, h3⟩, h4⟩ := h
  have hinfo : get_file_info e = .ok ⟨e.size, e.mtime, hash_file e.content⟩ :=
    get_file_info_ok.mpr ⟨h3, h4, rfl⟩
  simp [gStep, h1, h2, hinfo]

theorem gStep_of_not_eligible {source dest : FPath} {e : FileEnt}
    (h : ¬ eligible source dest e = true) (gs : Index) :
    gStep source dest gs e = gs := by
  unfold gStep
  cases h1 : is_safe_path e.path source with
  | false => simp [h1]
  | true =>
    cases h2 : is_safe_path e.path dest with
    | true => simp [h1, h2]
    | false =>
      cases hinfo : get_file_info e with
      | error msg => simp [h1, h2, hinfo]
      | ok info =>
        obtain ⟨h3, h4, _⟩ := get_file_info_ok.mp hinfo
        exact absurd (by simp [eligible, h1, h2, h3, h4]) h

theorem mem_addToGroups_cases :
    ∀ (gs : Index) {k : String} {p : FPath} {g : String × List FPath},
      g ∈ addToGroups gs k p → ∀ q ∈ g.2,
        (∃ g' ∈ gs, g'.1 = g.1 ∧ q ∈ g'.2) ∨ (q = p ∧ g.1 = k) := by
  intro gs
  induction gs with
  | nil =>
    intro k p g hg q hq
    simp only [addToGroups, List.mem_singleton] at hg
    subst hg
    simp only [List.mem_singleton] at hq
    exact Or.inr ⟨hq, rfl⟩
  | cons g0 gs ih =>
    intro k p g hg q hq
    obtain ⟨k0, l0⟩ := g0
    by_cases h : k0 = k
    · subst h
      have hstep : addToGroups ((k0, l0) :: gs) k0 p = (k0, l0 ++ [p]) :: gs := by
        simp [addToGroups]
      rw [hstep] at hg
      rcases List.mem_cons.mp hg with hg | hg
      · subst hg
        rcases List.mem_append.mp hq with h' | h'
        · exact Or.inl ⟨(k0, l0), List.mem_cons_self _ _, rfl, h'⟩
        · rw [List.mem_singleton] at h'
          exact Or.inr ⟨h', rfl⟩
      · exact Or.inl ⟨g, List.mem_cons_of_mem _ hg, rfl, hq⟩
    · have hstep : addToGroups ((k0, l0) :: gs) k p = (k0, l0) :: addToGroups gs k p := by
        simp [addToGroups, h]
      rw [hstep] at hg
      rcases List.mem_cons.mp hg with hg | hg
      · subst hg
        exact Or.inl ⟨(k0, l0), List.mem_cons_self _ _, rfl, hq⟩
      · rcases ih hg q hq with ⟨g', hg', h1, h2⟩ | h'
        · exact Or.inl ⟨g', List.mem_cons_of_mem _ hg', h1, h2⟩
        · exact Or.inr h'

theorem lookupGroup_addToGroups_self (gs : Index) (k : String) (p : FPath) :
    lookupGroup (addToGroups gs k p) k = lookupGroup gs k ++ [p] := by
  induction gs with
  | nil => simp [addToGroups, lookupGroup]
  | cons g0 gs ih =>
    obtain ⟨k0, l0⟩ := g0
    by_cases h : k0 = k
    · subst h
      simp [addToGroups, lookupGroup]
    · simp [addToGroups, lookupGroup, h, ih]

theorem lookupGroup_addToGroups_ne (gs : Index) {k k' : String} (p : FPath)
    (h : k' ≠ k) : lookupGroup (addToGroups gs k' p) k = lookupGroup gs k := by
  induction gs with
  | nil => simp [addToGroups, lookupGroup, h]
  | cons g0 gs ih =>
    obtain ⟨k0, l0⟩ := g0
    by_cases h0 : k0 = k'
    · subst h0
      simp [addToGroups, lookupGroup, h]
    · by_cases h1 : k0 = k <;> simp [addToGroups, lookupGroup, h0, h1, ih, Ne.symm h]

theorem mem_lookupGroup {gs : Index} {k : String} {p : FPath}
    (h : p ∈ lookupGroup gs k) : ∃ l, (k, l) ∈ gs ∧ p ∈ l := by
  induction gs with
  | nil => simp [lookupGroup] at h
  | cons g0 gs ih =>
    obtain ⟨k0, l0⟩ := g0
    by_cases h0 : k0 = k
    · subst h0
      simp only [lookupGroup, if_pos rfl] at h
      exact ⟨l0, List.mem_cons_self _ _, h⟩
    · simp only [lookupGroup, if_neg h0] at h
      obtain ⟨l, hl, hp⟩ := ih h
      exact ⟨l, List.mem_cons_of_mem _ hl, hp⟩

theorem lookupGroup_gStep_mono {source dest : FPath} {gs : Index} {k : String}
    {p : FPath} (e : FileEnt) (h : p ∈ lookupGroup gs k) :
    p ∈ lookupGroup (gStep source dest gs e) k := by
  by_cases he : eligible source dest e = true
  · rw [gStep_of_eligible he]
    by_cases hk : hash_file e.content = k
    · subst hk
      rw [lookupGroup_addToGroups_self]
      exact List.mem_append_left _ h
    · rwa [lookupGroup_addToGroups_ne _ _ hk]
  · rwa [gStep_of_not_eligible he]

theorem gfold_lookup_mono {source dest : FPath} {k : String} {p : FPath} :
    ∀ (walk : List FileEnt) (gs : Index), p ∈ lookupGroup gs k →
      p ∈ lookupGroup (walk.foldl (gStep source dest) gs) k := by
  intro walk
  induction walk with
  | nil => intro gs h; exact h
  | cons e es ih =>
    intro gs h
    exact ih _ (lookupGroup_gStep_mono e h)

theorem gfold_sound {source dest : FPath} :
    ∀ (walk : List FileEnt) (gs : Index) (g : String × List FPath),
      g ∈ walk.foldl (gStep source dest) gs → ∀ p ∈ g.2,
        (∃ g' ∈ gs, g'.1 = g.1 ∧ p ∈ g'.2)
          ∨ ∃ e ∈ walk, e.path = p ∧ eligible source dest e = true
              ∧ g.1 = hash_file e.content := by
  intro walk
  induction walk with
  | nil =>
    intro gs g hg p hp
    exact Or.inl ⟨g, hg, rfl, hp⟩
  | cons e es ih =>
    intro gs g hg p hp
    rw [List.foldl_cons] at hg
    rcases ih _ g hg p hp with ⟨g', hg', h1, h2⟩ | ⟨e', he', h1, h2, h3⟩
    · by_cases he : eligible source dest e = true
      · rw [gStep_of_eligible he] at hg'
        rcases mem_addToGroups_cases gs hg' p h2 with ⟨g'', hg'', hk, hq⟩ | ⟨hq, hk⟩
        · exact Or.inl ⟨g'', hg'', hk.trans h1, hq⟩
        · exact Or.inr ⟨e, List.mem_cons_self _ _, hq.symm, he, h1.symm.trans hk⟩
      · rw [gStep_of_not_eligible he] at hg'
        exact Or.inl ⟨g', hg', h1, h2⟩
    · exact Or.inr ⟨e', List.mem_cons_of_mem _ he', h1, h2, h3⟩

theorem gfold_complete {source dest : FPath} :
    ∀ (walk : List FileEnt) (gs : Index) (e : FileEnt), e ∈ walk →
      eligible source dest e = true →
      e.path ∈ lookupGroup (walk.foldl (gStep source dest) gs) (hash_file e.content) := by
  intro walk
  induction walk with
  | nil => intro gs e he; cases he
  | cons e0 es ih =>
    intro gs e he helig
    rw [List.foldl_cons]
    rcases List.mem_cons.mp he with he | he
    · subst he
      apply gfold_lookup_mono
      rw [gStep_of_eligible helig, lookupGroup_addToGroups_self]
      exact List.mem_append_right _ (List.mem_singleton.mpr rfl)
    · exact ih _ e he helig

theorem allPaths_cons (g : String × List FPath) (gs : Index) :
    allPaths (g :: gs) = g.2 ++ allPaths gs := by
  simp [allPaths]

theorem allPaths_addToGroups (gs : Index) (k : String) (p : FPath) :
    List.Perm (allPaths (addToGroups gs k p)) (allPaths gs ++ [p]) := by
  induction gs with
  | nil => simp [addToGroups, allPaths]
  | cons g0 gs ih =>
    obtain ⟨k0, l0⟩ := g0
    by_cases h : k0 = k
    · subst h
      have hstep : addToGroups ((k0, l0) :: gs) k0 p = (k0, l0 ++ [p]) :: gs := by
        simp [addToGroups]
      rw [hstep, allPaths_cons, allPaths_cons]
      simp only [List.append_assoc]
      exact List.Perm.append_left l0 List.perm_append_comm
    · have hstep : addToGroups ((k0, l0) :: gs) k p = (k0, l0) :: addToGroups gs k p := by
        simp [addToGroups, h]
      rw [hstep, allPaths_cons, allPaths_cons, List.append_assoc]
      exact List.Perm.append_left l0 ih

theorem gfold_allPaths_perm {source dest : FPath} :
    ∀ (walk : List FileEnt) (gs : Index),
      List.Perm (allPaths (walk.foldl (gStep source dest) gs))
        (allPaths gs ++ (walk.filter (eligible source dest)).map (fun e => e.path)) := by
  intro walk
  induction walk with
  | nil => intro gs; simp
  | cons e es ih =>
    intro gs
    rw [List.foldl_cons]
    by_cases he : eligible source dest e = true
    · rw [gStep_of_eligible he]
      refine (ih _).trans ?_
      have h1 := allPaths_addToGroups gs (hash_file e.content) e.path
      refine (h1.append_right _).trans ?_
      simp [List.filter_cons, he, List.append_assoc]
    · rw [gStep_of_not_eligible he]
      refine (ih _).trans ?_
      simp [List.filter_cons, he]

theorem groups_allPaths_nodup {source dest : FPath} {walk : List FileEnt}
    (h : (walk.map (fun e => e.path)).Nodup) :
    (allPaths (walk.foldl (gStep source dest) [])).Nodup := by
  refine (gfold_allPaths_perm walk []).nodup_iff.mpr ?_
  have hsub : List.Sublist ((walk.filter (eligible source dest)).map (fun e => e.path))
      (walk.map (fun e => e.path)) :=
    (List.filter_sublist walk).map _
  simpa [allPaths] using h.sublist hsub

theorem group_list_nodup {gs : Index} (h : (allPaths gs).Nodup)
    {g : String × List FPath} (hg : g ∈ gs) : g.2.Nodup :=
  h.sublist (List.sublist_flatten_of_mem (List.mem_map_of_mem _ hg))

/-! ### Duplicate-selection lemmas -/

theorem foldl_append_flatten {α β : Type} (f : α → List β) :
    ∀ (l : List α) (a : List β),
      l.foldl (fun acc x => acc ++ f x) a = a ++ (l.map f).flatten := by
  intro l
  induction l with
  | nil => intro a; simp
  | cons x xs ih => intro a; simp [ih, List.append_assoc]

theorem get_duplicates_eq (gs : Index) :
    get_duplicates gs = (gs.map (fun g => g.2.drop 1)).flatten := by
  unfold get_duplicates
  have hfun : (fun (acc : List FPath) (g : String × List FPath) =>
      if g.2.length > 1 then acc ++ g.2.drop 1 else acc) =
      fun acc g => acc ++ g.2.drop 1 := by
    funext acc g
    by_cases h : g.2.length > 1
    · simp [h]
    · have : g.2.drop 1 = [] := List.drop_eq_nil_of_le (by omega)
      simp [h, this]
  rw [hfun, foldl_append_flatten]
  simp

theorem mem_get_duplicates {gs : Index} {p : FPath} :
    p ∈ get_duplicates gs ↔ ∃ g ∈ gs, p ∈ g.2.drop 1 := by
  rw [get_duplicates_eq]
  simp only [List.mem_flatten, List.mem_map]
  constructor
  · rintro ⟨l, ⟨g, hg, rfl⟩, hp⟩
    exact ⟨g, hg, hp⟩
  · rintro ⟨g, hg, hp⟩
    exact ⟨g.2.drop 1, ⟨g, hg, rfl⟩, hp⟩

theorem get_duplicates_eq_nil {gs : Index} (h : ∀ g ∈ gs, g.2.length ≤ 1) :
    get_duplicates gs = [] := by
  rw [get_duplicates_eq]
  induction gs with
  | nil => rfl
  | cons g rest ih =>
    have hg : g.2.drop 1 = [] :=
      List.drop_eq_nil_of_le (h g (List.mem_cons_self _ _))
    simp only [List.map_cons, List.flatten_cons, hg, List.nil_append]
    exact ih (fun g' hg' => h g' (List.mem_cons_of_mem _ hg'))

theorem get_duplicates_sublist (gs : Index) :
    List.Sublist (get_duplicates gs) (allPaths gs) := by
  rw [get_duplicates_eq]
  unfold allPaths
  induction gs with
  | nil => simp
  | cons g rest ih =>
    simp only [List.map_cons, List.flatten_cons]
    exact (List.drop_sublist 1 g.2).append ih

theorem get_duplicates_nodup {gs : Index} (h : (allPaths gs).Nodup) :
    (get_duplicates gs).Nodup :=
  h.sublist (get_duplicates_sublist gs)

theorem allPaths_perm_split (gs : Index) :
    List.Perm (allPaths gs)
      ((gs.map (fun g => g.2.take 1)).flatten ++ (gs.map (fun g => g.2.drop 1)).flatten) := by
  induction gs with
  | nil => simp [allPaths]
  | cons g rest ih =>
    rw [allPaths_cons]
    refine (List.Perm.append_left g.2 ih).trans ?_
    conv_lhs => rw [← List.take_append_drop 1 g.2]
    simp only [List.map_cons, List.flatten_cons, List.append_assoc]
    refine List.Perm.append_left _ ?_
    have h1 : List.Perm (g.2.drop 1 ++ ((rest.map (fun g => g.2.take 1)).flatten
        ++ (rest.map (fun g => g.2.drop 1)).flatten))
        ((rest.map (fun g => g.2.take 1)).flatten ++ (g.2.drop 1
          ++ (rest.map (fun g => g.2.drop 1)).flatten)) := by
      rw [← List.append_assoc, ← List.append_assoc]
      exact List.Perm.append_right _ List.perm_append_comm
    exact h1

theorem survivors_disjoint_duplicates {gs : Index} (h : (allPaths gs).Nodup) :
    ∀ p ∈ (gs.map (fun g => g.2.take 1)).flatten, p ∉ get_duplicates gs := by
  have hnd := (allPaths_perm_split gs).nodup_iff.mp h
  have hdisj := List.disjoint_of_nodup_append hnd
  intro p hp hpd
  rw [get_duplicates_eq] at hpd
  exact hdisj hp hpd

/-! ### Relocation lemmas -/

theorem isPrefixOf_append_self (l t : FPath) : l.isPrefixOf (l ++ t) = true := by
  simp

theorem path_inj {l : List FileEnt} (hn : (l.map (fun e => e.path)).Nodup)
    {e1 e2 : FileEnt} (h1 : e1 ∈ l) (h2 : e2 ∈ l) (h : e1.path = e2.path) : e1 = e2 :=
  List.inj_on_of_nodup_map hn h1 h2 h

theorem find?_path_of_unique :
    ∀ (l : List FileEnt) (e0 : FileEnt) (d : FPath), e0 ∈ l → e0.path = d →
      (∀ e' ∈ l, e'.path = d → e' = e0) →
      l.find? (fun e => e.path = d) = some e0 := by
  intro l
  induction l with
  | nil => intro e0 d h; cases h
  | cons x xs ih =>
    intro e0 d hmem hpath huniq
    by_cases hx : x.path = d
    · have hxe : x = e0 := huniq x (List.mem_cons_self _ _) hx
      subst hxe
      rw [List.find?_cons_of_pos _ (by simp [hx])]
    · rw [List.find?_cons_of_neg _ (by simp [hx])]
      have hmem' : e0 ∈ xs := by
        rcases List.mem_cons.mp hmem with h | h
        · exact absurd (h ▸ hpath) hx
        · exact h
      exact ih e0 d hmem' hpath (fun e' he' => huniq e' (List.mem_cons_of_mem _ he'))

theorem cleanComp_getLastD {p : FPath} (hp : cleanPath p) : cleanComp (p.getLastD "") := by
  cases p with
  | nil => exact ⟨by decide, by decide⟩
  | cons x xs =>
    have hne : x :: xs ≠ [] := by simp
    have hgl : (x :: xs).getLastD "" = (x :: xs).getLast hne := by
      rw [List.getLastD_eq_getLast?, List.getLast?_eq_getLast _ hne]
      rfl
    rw [hgl]
    exact hp _ (List.getLast_mem hne)

theorem is_safe_path_extend {q dp : FPath} {b : Comp} (hb : cleanComp b)
    (h : is_safe_path q dp = true) : is_safe_path (q ++ [b]) dp = true := by
  rw [is_safe_path_iff] at h ⊢
  rw [resolvePath_append_single hb]
  exact h.trans (List.prefix_append _ _)

theorem moveFile_ok_cases {fs : FS} {src dst : FPath} {fs' : FS} {w : FPath}
    (h : moveFile fs src dst = .ok (fs', w)) :
    ∃ e, fs.lookup src = some e
      ∧ (w = dst ∨ w = dst ++ [src.getLastD ""])
      ∧ fs' = ⟨(fs.files.filter (fun e' => e'.path ≠ src ∧ e'.path ≠ w)) ++ [{ e with path := w }],
               fs.destWritable⟩ := by
  unfold moveFile at h
  cases hl : fs.lookup src with
  | none => rw [hl] at h; cases h
  | some e =>
    rw [hl] at h
    dsimp only at h
    by_cases hd : isDirAt fs dst = true
    · rw [if_pos hd] at h
      by_cases hex : existsFile fs (dst ++ [src.getLastD ""]) = true
      · rw [if_pos hex] at h
        cases h
      · rw [if_neg hex] at h
        injection h with h'
        injection h' with h1 h2
        subst h1
        subst h2
        exact ⟨e, rfl, Or.inr rfl, rfl⟩
    · rw [if_neg hd] at h
      injection h with h'
      injection h' with h1 h2
      subst h1
      subst h2
      exact ⟨e, rfl, Or.inl rfl, rfl⟩

theorem moveStep_unsafe_src {sp dp : FPath} {csv : Bool} {st : MoveState} {d : FPath}
    (h : ¬ is_safe_path (resolvePath d) sp = true) :
    moveStep sp dp csv st d = { st with warnings := st.warnings ++ [resolvePath d] } := by
  unfold moveStep
  simp [h]

theorem moveStep_unsafe_target {sp dp : FPath} {csv : Bool} {st : MoveState} {d : FPath}
    (h1 : is_safe_path (resolvePath d) sp = true)
    (h2 : ¬ is_safe_path (dp ++ (resolvePath d).drop sp.length) dp = true) :
    moveStep sp dp csv st d = { st with warnings := st.warnings ++ [resolvePath d] } := by
  unfold moveStep
  simp [h1, h2]

theorem moveStep_stat_fail {sp dp : FPath} {csv : Bool} {st : MoveState} {d : FPath}
    (h1 : is_safe_path (resolvePath d) sp = true)
    (h2 : is_safe_path (dp ++ (resolvePath d).drop sp.length) dp = true)
    (h3 : st.fs.lookup (resolvePath d) = none) :
    moveStep sp dp csv st d =
      { st with log := st.log ++ (if csv then
          [movedErrRow (resolvePath d) (some (dp ++ (resolvePath d).drop sp.length)) "stat failed"]
        else []) } := by
  unfold moveStep
  simp [h1, h2, h3]

theorem moveStep_move_error {sp dp : FPath} {csv : Bool} {st : MoveState} {d : FPath}
    {e : FileEnt} {msg : String}
    (h1 : is_safe_path (resolvePath d) sp = true)
    (h2 : is_safe_path (dp ++ (resolvePath d).drop sp.length) dp = true)
    (h3 : st.fs.lookup (resolvePath d) = some e)
    (h4 : moveFile st.fs (resolvePath d) (dp ++ (resolvePath d).drop sp.length) = .error msg) :
    moveStep sp dp csv st d =
      { st with
          reads := st.reads ++ [resolvePath d],
          log := st.log ++ (if csv then
            [movedErrRow (resolvePath d) (some (dp ++ (resolvePath d).drop sp.length)) msg]
          else []) } := by
  unfold moveStep
  simp [h1, h2, h3, h4]

theorem moveStep_move_ok {sp dp : FPath} {csv : Bool} {st : MoveState} {d : FPath}
    {e : FileEnt} {fs' : FS} {w : FPath}
    (h1 : is_safe_path (resolvePath d) sp = true)
    (h2 : is_safe_path (dp ++ (resolvePath d).drop sp.length) dp = true)
    (h3 : st.fs.lookup (resolvePath d) = some e)
    (h4 : moveFile st.fs (resolvePath d) (dp ++ (resolvePath d).drop sp.length) = .ok (fs', w)) :
    moveStep sp dp csv st d =
      { st with
          fs := fs',
          reads := st.reads ++ [resolvePath d],
          moves := st.moves ++ [(resolvePath d, w)],
          log := st.log ++ (if csv then
            [movedRow (resolvePath d) w
              (if e.readable ∧ ¬ e.isLink then hash_file e.content else "") e.size e.mtime]
          else []) } := by
  unfold moveStep
  simp [h1, h2, h3, h4]

theorem moveStep_shape (sp dp : FPath) (csv : Bool) (st : MoveState) (d : FPath) :
    ∃ fs' l w r m, moveStep sp dp csv st d =
      ⟨fs', st.log ++ l, st.warnings ++ w, st.reads ++ r, st.moves ++ m⟩ := by
  by_cases h1 : is_safe_path (resolvePath d) sp = true
  · by_cases h2 : is_safe_path (dp ++ (resolvePath d).drop sp.length) dp = true
    · cases h3 : st.fs.lookup (resolvePath d) with
      | none =>
        rw [moveStep_stat_fail h1 h2 h3]
        exact ⟨st.fs,
          (if csv then
            [movedErrRow (resolvePath d) (some (dp ++ (resolvePath d).drop sp.length)) "stat failed"]
          else []), [], [], [], by simp⟩
      | some e =>
        cases h4 : moveFile st.fs (resolvePath d) (dp ++ (resolvePath d).drop sp.length) with
        | error msg =>
          rw [moveStep_move_error h1 h2 h3 h4]
          exact ⟨st.fs,
            (if csv then
              [movedErrRow (resolvePath d) (some (dp ++ (resolvePath d).drop sp.length)) msg]
            else []), [], [resolvePath d], [], by simp⟩
        | ok pr =>
          obtain ⟨fs', w⟩ := pr
          rw [moveStep_move_ok h1 h2 h3 h4]
          exact ⟨fs',
            (if csv then
              [movedRow (resolvePath d) w
                (if e.readable ∧ ¬ e.isLink then hash_file e.content else "") e.size e.mtime]
            else []), [], [resolvePath d], [(resolvePath d, w)], by simp⟩
    · rw [moveStep_unsafe_target h1 h2]
      exact ⟨st.fs, [], [resolvePath d], [], [], by simp⟩
  · rw [moveStep_unsafe_src h1]
    exact ⟨st.fs, [], [resolvePath d], [], [], by simp⟩

theorem moveStep_count {sp dp : FPath} (st : MoveState) (d : FPath) :
    (moveStep sp dp true st d).log.length + (moveStep sp dp true st d).warnings.length
      = st.log.length + st.warnings.length + 1 := by
  by_cases h1 : is_safe_path (resolvePath d) sp = true
  · by_cases h2 : is_safe_path (dp ++ (resolvePath d).drop sp.length) dp = true
    · cases h3 : st.fs.lookup (resolvePath d) with
      | none => rw [moveStep_stat_fail h1 h2 h3]; simp; omega
      | some e =>
        cases h4 : moveFile st.fs (resolvePath d) (dp ++ (resolvePath d).drop sp.length) with
        | error msg => rw [moveStep_move_error h1 h2 h3 h4]; simp; omega
        | ok pr =>
          obtain ⟨fs', w⟩ := pr
          rw [moveStep_move_ok h1 h2 h3 h4]
          simp
          omega
    · rw [moveStep_unsafe_target h1 h2]; simp; omega
  · rw [moveStep_unsafe_src h1]; simp; omega

theorem moveStep_safety {sp dp : FPath} {csv : Bool} {st : MoveState} (d : FPath)
    (hr : ∀ p ∈ st.reads, is_safe_path p sp = true)
    (hm : ∀ pr ∈ st.moves, moveChecks sp dp pr.1 = true ∧ is_safe_path pr.2 dp = true) :
    (∀ p ∈ (moveStep sp dp csv st d).reads, is_safe_path p sp = true)
      ∧ ∀ pr ∈ (moveStep sp dp csv st d).moves,
          moveChecks sp dp pr.1 = true ∧ is_safe_path pr.2 dp = true := by
  by_cases h1 : is_safe_path (resolvePath d) sp = true
  · by_cases h2 : is_safe_path (dp ++ (resolvePath d).drop sp.length) dp = true
    · cases h3 : st.fs.lookup (resolvePath d) with
      | none =>
        rw [moveStep_stat_fail h1 h2 h3]
        exact ⟨hr, hm⟩
      | some e =>
        cases h4 : moveFile st.fs (resolvePath d) (dp ++ (resolvePath d).drop sp.length) with
        | error msg =>
          rw [moveStep_move_error h1 h2 h3 h4]
          refine ⟨?_, hm⟩
          intro p hp
          rcases List.mem_append.mp hp with h | h
          · exact hr p h
          · rw [List.mem_singleton] at h
            subst h
            exact h1
        | ok pr =>
          obtain ⟨fs', w⟩ := pr
          rw [moveStep_move_ok h1 h2 h3 h4]
          constructor
          · intro p hp
            rcases List.mem_append.mp hp with h | h
            · exact hr p h
            · rw [List.mem_singleton] at h
              subst h
              exact h1
          · intro pr hpr
            rcases List.mem_append.mp hpr with h | h
            · exact hm pr h
            · rw [List.mem_singleton] at h
              subst h
              refine ⟨?_, ?_⟩
              · simp [moveChecks, targetOf, h1, h2]
              · obtain ⟨e', _, hw, _⟩ := moveFile_ok_cases h4
                rcases hw with hw | hw
                · subst hw
                  exact h2
                · subst hw
                  exact is_safe_path_extend
                    (cleanComp_getLastD (cleanPath_resolvePath d)) h2
    · rw [moveStep_unsafe_target h1 h2]
      exact ⟨hr, hm⟩
  · rw [moveStep_unsafe_src h1]
    exact ⟨hr, hm⟩

theorem moveFold_safety {sp dp : FPath} {csv : Bool} :
    ∀ (dups : List FPath) (st : MoveState),
      (∀ p ∈ st.reads, is_safe_path p sp = true) →
      (∀ pr ∈ st.moves, moveChecks sp dp pr.1 = true ∧ is_safe_path pr.2 dp = true) →
      (∀ p ∈ (dups.foldl (moveStep sp dp csv) st).reads, is_safe_path p sp = true)
        ∧ ∀ pr ∈ (dups.foldl (moveStep sp dp csv) st).moves,
            moveChecks sp dp pr.1 = true ∧ is_safe_path pr.2 dp = true := by
  intro dups
  induction dups with
  | nil => intro st hr hm; exact ⟨hr, hm⟩
  | cons d rest ih =>
    intro st hr hm
    rw [List.foldl_cons]
    obtain ⟨hr', hm'⟩ := moveStep_safety d hr hm
    exact ih _ hr' hm'

theorem moveFold_warnings_mono {sp dp : FPath} {csv : Bool} :
    ∀ (dups : List FPath) (st : MoveState) (p : FPath), p ∈ st.warnings →
      p ∈ (dups.foldl (moveStep sp dp csv) st).warnings := by
  intro dups
  induction dups with
  | nil => intro st p h; exact h
  | cons d rest ih =>
    intro st p h
    rw [List.foldl_cons]
    obtain ⟨fs', l, w, r, m, hshape⟩ := moveStep_shape sp dp csv st d
    refine ih _ p ?_
    rw [hshape]
    exact List.mem_append_left _ h

theorem moveFold_warnings {sp dp : FPath} {csv : Bool} :
    ∀ (dups : List FPath) (st : MoveState) (d : FPath), d ∈ dups →
      ¬ (is_safe_path (resolvePath d) sp = true
          ∧ is_safe_path (dp ++ (resolvePath d).drop sp.length) dp = true) →
      resolvePath d ∈ (dups.foldl (moveStep sp dp csv) st).warnings := by
  intro dups
  induction dups with
  | nil => intro st d h; cases h
  | cons d0 rest ih =>
    intro st d hd hbad
    rw [List.foldl_cons]
    rcases List.mem_cons.mp hd with hd | hd
    · subst hd
      have hw : resolvePath d ∈ (moveStep sp dp csv st d).warnings := by
        by_cases h1 : is_safe_path (resolvePath d) sp = true
        · have h2 : ¬ is_safe_path (dp ++ (resolvePath d).drop sp.length) dp = true :=
            fun h2 => hbad ⟨h1, h2⟩
          rw [moveStep_unsafe_target h1 h2]
          exact List.mem_append_right _ (List.mem_singleton.mpr rfl)
        · rw [moveStep_unsafe_src h1]
          exact List.mem_append_right _ (List.mem_singleton.mpr rfl)
      exact moveFold_warnings_mono rest _ _ hw
    · exact ih _ d hd hbad

/-! ### Clean-run relocation characterisation -/

theorem isPrefixOf_trans {a b c : FPath} (h1 : a.isPrefixOf b = true)
    (h2 : b.isPrefixOf c = true) : a.isPrefixOf c = true := by
  rw [List.isPrefixOf_iff_prefix] at h1 h2 ⊢
  exact h1.trans h2

theorem prefix_decomp {sp d : FPath} (h : sp.isPrefixOf d = true) :
    sp ++ d.drop sp.length = d := by
  rw [List.isPrefixOf_iff_prefix] at h
  obtain ⟨t, ht⟩ := h
  rw [← ht, List.drop_left]

theorem target_inj {sp dp d1 d2 : FPath} (h1 : sp.isPrefixOf d1 = true)
    (h2 : sp.isPrefixOf d2 = true)
    (h : targetOf sp dp d1 = targetOf sp dp d2) : d1 = d2 := by
  unfold targetOf at h
  have hdrop := List.append_cancel_left h
  calc d1 = sp ++ d1.drop sp.length := (prefix_decomp h1).symm
    _ = sp ++ d2.drop sp.length := by rw [hdrop]
    _ = d2 := prefix_decomp h2

theorem target_prefix_target {sp dp d1 d2 : FPath} (h1 : sp.isPrefixOf d1 = true)
    (h2 : sp.isPrefixOf d2 = true)
    (h : (targetOf sp dp d1).isPrefixOf (targetOf sp dp d2) = true) :
    d1.isPrefixOf d2 = true := by
  rw [List.isPrefixOf_iff_prefix] at h ⊢
  unfold targetOf at h
  rw [List.prefix_append_right_inj] at h
  conv_lhs => rw [← prefix_decomp h1]
  conv_rhs => rw [← prefix_decomp h2]
  rw [List.prefix_append_right_inj]
  exact h

theorem dp_prefix_target (sp dp d : FPath) :
    dp.isPrefixOf (targetOf sp dp d) = true :=
  isPrefixOf_append_self dp _

theorem fs_lookup_eq {fs0 : FS} (hnodup0 : (fs0.files.map (fun e => e.path)).Nodup)
    {d : FPath} {e0 : FileEnt} (he : e0 ∈ fs0.files) (hp : e0.path = d) :
    fs0.lookup d = some e0 := by
  unfold FS.lookup
  exact find?_path_of_unique _ e0 d he hp
    (fun e' he' hp' => path_inj hnodup0 he' he (hp'.trans hp.symm))

theorem relocEnt_eq {fs0 : FS} {sp dp d : FPath} {e0 : FileEnt}
    (hl : fs0.lookup d = some e0) :
    relocEnt fs0 sp dp d = movedEnt sp dp e0 := by
  unfold relocEnt
  rw [hl]

theorem relocEnt_path {fs0 : FS} (hnodup0 : (fs0.files.map (fun e => e.path)).Nodup)
    {sp dp d : FPath} {e0 : FileEnt} (he : e0 ∈ fs0.files) (hp : e0.path = d) :
    (relocEnt fs0 sp dp d).path = targetOf sp dp d := by
  rw [relocEnt_eq (fs_lookup_eq hnodup0 he hp)]
  show targetOf sp dp e0.path = targetOf sp dp d
  rw [hp]

theorem move_fold_core
    {sp dp : FPath} {csv : Bool} {fs0 : FS}
    (hspc : cleanPath sp) (hdpc : cleanPath dp)
    (hclean0 : ∀ e ∈ fs0.files, cleanPath e.path)
    (hnodup0 : (fs0.files.map (fun e => e.path)).Nodup)
    (hnopre0 : ∀ e1 ∈ fs0.files, ∀ e2 ∈ fs0.files,
        e1.path.isPrefixOf e2.path = true → e1.path = e2.path)
    (hdest0 : ∀ e ∈ fs0.files, ¬ dp.isPrefixOf e.path = true) :
    ∀ (rest done : List FPath),
      (∀ d ∈ done ++ rest, sp.isPrefixOf d = true ∧ ¬ dp.isPrefixOf d = true
          ∧ ∃ e ∈ fs0.files, e.path = d) →
      (done ++ rest).Nodup →
      ∀ (st : MoveState),
        st.fs = ⟨fs0.files.filter (fun e => decide (¬ e.path ∈ done))
                  ++ done.map (relocEnt fs0 sp dp), fs0.destWritable⟩ →
        (rest.foldl (moveStep sp dp csv) st).fs =
          ⟨fs0.files.filter (fun e => decide (¬ e.path ∈ done ++ rest))
            ++ (done ++ rest).map (relocEnt fs0 sp dp), fs0.destWritable⟩ := by
  intro rest
  induction rest with
  | nil =>
    intro done hall hnd st hst
    simpa using hst
  | cons d rest' ih =>
    intro done hall hnd st hst
    rw [List.foldl_cons]
    obtain ⟨hspd, hdpd, e0, he0, he0p⟩ :=
      hall d (List.mem_append_right _ (List.mem_cons_self _ _))
    have hcleand : cleanPath d := he0p ▸ hclean0 e0 he0
    have hrd : resolvePath d = d := resolvePath_of_clean hcleand
    have h1 : is_safe_path (resolvePath d) sp = true := by
      rw [hrd]
      unfold is_safe_path
      rw [resolvePath_of_clean hspc, resolvePath_of_clean hcleand]
      exact hspd
    have hcleant : cleanPath (targetOf sp dp d) :=
      cleanPath_append hdpc (cleanPath_drop hcleand _)
    have h2 : is_safe_path (dp ++ (resolvePath d).drop sp.length) dp = true := by
      rw [hrd]
      show is_safe_path (targetOf sp dp d) dp = true
      unfold is_safe_path
      rw [resolvePath_of_clean hdpc, resolvePath_of_clean hcleant]
      exact dp_prefix_target sp dp d
    have hd_not_done : d ∉ done := by
      intro hc
      exact (List.disjoint_of_nodup_append hnd) hc (List.mem_cons_self _ _)
    have hkeep0 : (fun e => decide (¬ e.path ∈ done)) e0 = true := by
      simp [he0p, hd_not_done]
    have hmap_path : ∀ x ∈ done.map (relocEnt fs0 sp dp),
        ∃ d'' ∈ done, x.path = targetOf sp dp d'' := by
      intro x hx
      rw [List.mem_map] at hx
      obtain ⟨d'', hd'', rfl⟩ := hx
      obtain ⟨_, _, e'', he'', he''p⟩ := hall d'' (List.mem_append_left _ hd'')
      exact ⟨d'', hd'', relocEnt_path hnodup0 he'' he''p⟩
    have hlk : st.fs.lookup (resolvePath d) = some e0 := by
      rw [hrd, hst]
      unfold FS.lookup
      apply find?_path_of_unique
      · exact List.mem_append_left _ (List.mem_filter.mpr ⟨he0, hkeep0⟩)
      · exact he0p
      · intro e' he' hp'
        rcases List.mem_append.mp he' with h | h
        · exact path_inj hnodup0 (List.mem_filter.mp h).1 he0 (hp'.trans he0p.symm)
        · exfalso
          obtain ⟨d'', _, hpath⟩ := hmap_path e' h
          rw [hpath] at hp'
          exact hdpd (hp' ▸ dp_prefix_target sp dp d'')
    have hentry_of_done : ∀ d'' ∈ done, ∃ e'' ∈ fs0.files, e''.path = d'' := by
      intro d'' hd''
      obtain ⟨_, _, e'', he'', he''p⟩ := hall d'' (List.mem_append_left _ hd'')
      exact ⟨e'', he'', he''p⟩
    have hdir : ¬ isDirAt st.fs (targetOf sp dp d) = true := by
      intro hc
      rw [isDirAt, List.any_eq_true] at hc
      obtain ⟨e', he', hcond⟩ := hc
      rw [decide_eq_true_eq] at hcond
      obtain ⟨hne, hpre⟩ := hcond
      rw [hst] at he'
      rcases List.mem_append.mp he' with h | h
      · have h' := (List.mem_filter.mp h).1
        exact hdest0 e' h' (isPrefixOf_trans (dp_prefix_target sp dp d) hpre)
      · obtain ⟨d'', hd'', hpath⟩ := hmap_path e' h
        rw [hpath] at hpre hne
        obtain ⟨_, _, e2, he2, he2p⟩ := hall d'' (List.mem_append_left _ hd'')
        have hsp'' : sp.isPrefixOf d'' = true :=
          (hall d'' (List.mem_append_left _ hd'')).1
        have hdd : d.isPrefixOf d'' = true := target_prefix_target hspd hsp'' hpre
        have : d = d'' := by
          have := hnopre0 e0 he0 e2 he2
          rw [he0p, he2p] at this
          exact this hdd
        exact hne (by rw [this])
    have hex : ¬ existsFile st.fs (targetOf sp dp d) = true := by
      intro hc
      rw [existsFile, List.any_eq_true] at hc
      obtain ⟨e', he', hcond⟩ := hc
      rw [decide_eq_true_eq] at hcond
      rw [hst] at he'
      rcases List.mem_append.mp he' with h | h
      · have h' := (List.mem_filter.mp h).1
        exact hdest0 e' h' (hcond ▸ dp_prefix_target sp dp d)
      · obtain ⟨d'', hd'', hpath⟩ := hmap_path e' h
        rw [hpath] at hcond
        have hsp'' : sp.isPrefixOf d'' = true :=
          (hall d'' (List.mem_append_left _ hd'')).1
        have : d'' = d := target_inj hsp'' hspd hcond
        exact hd_not_done (this ▸ hd'')
    have h4 : moveFile st.fs d (targetOf sp dp d) =
        .ok (⟨st.fs.files.filter
                (fun e' => e'.path ≠ d ∧ e'.path ≠ targetOf sp dp d) ++
              [{ e0 with path := targetOf sp dp d }], st.fs.destWritable⟩,
             targetOf sp dp d) := by
      unfold moveFile
      rw [show st.fs.lookup d = some e0 from hrd ▸ hlk]
      dsimp only
      rw [if_neg hdir]
    have h4' : moveFile st.fs (resolvePath d) (dp ++ (resolvePath d).drop sp.length) =
        .ok (⟨st.fs.files.filter
                (fun e' => e'.path ≠ resolvePath d
                    ∧ e'.path ≠ dp ++ (resolvePath d).drop sp.length) ++
              [{ e0 with path := dp ++ (resolvePath d).drop sp.length }],
              st.fs.destWritable⟩,
             dp ++ (resolvePath d).drop sp.length) := by
      rw [hrd]
      exact h4
    rw [moveStep_move_ok h1 h2 hlk h4']
    have hX : (⟨st.fs.files.filter
            (fun e' => e'.path ≠ resolvePath d
                ∧ e'.path ≠ dp ++ (resolvePath d).drop sp.length) ++
          [{ e0 with path := dp ++ (resolvePath d).drop sp.length }],
          st.fs.destWritable⟩ : FS) =
        ⟨fs0.files.filter (fun e => decide (¬ e.path ∈ done ++ [d]))
          ++ (done ++ [d]).map (relocEnt fs0 sp dp), fs0.destWritable⟩ := by
      rw [hrd, FS.mk.injEq]
      refine ⟨?_, by rw [hst]⟩
      conv_lhs => rw [hst]
      dsimp only
      rw [List.filter_append, List.filter_filter]
      have hA : fs0.files.filter (fun e =>
          decide (e.path ≠ d ∧ e.path ≠ dp ++ d.drop sp.length)
            && decide (¬ e.path ∈ done)) =
          fs0.files.filter (fun e => decide (¬ e.path ∈ done ++ [d])) := by
        apply List.filter_congr
        intro e he
        have hnt : e.path ≠ dp ++ d.drop sp.length := by
          intro hc
          refine hdest0 e he ?_
          rw [hc]
          exact dp_prefix_target sp dp d
        by_cases hd1 : e.path = d <;> by_cases hd2 : e.path ∈ done <;>
          simp [hd1, hd2, hnt]
      have hB : (done.map (relocEnt fs0 sp dp)).filter
          (fun e' => e'.path ≠ d ∧ e'.path ≠ dp ++ d.drop sp.length) =
          done.map (relocEnt fs0 sp dp) := by
        rw [List.filter_eq_self]
        intro x hx
        obtain ⟨d'', hd'', hpath⟩ := hmap_path x hx
        have hsp'' : sp.isPrefixOf d'' = true :=
          (hall d'' (List.mem_append_left _ hd'')).1
        have hx1 : x.path ≠ d := by
          rw [hpath]
          intro hc
          refine hdpd ?_
          rw [← hc]
          exact dp_prefix_target sp dp d''
        have hx2 : x.path ≠ dp ++ d.drop sp.length := by
          rw [hpath]
          intro hc
          exact hd_not_done ((target_inj hsp'' hspd hc) ▸ hd'')
        simp [hx1, hx2]
      have hC : ({ e0 with path := dp ++ d.drop sp.length } : FileEnt) =
          relocEnt fs0 sp dp d := by
        rw [relocEnt_eq (fs_lookup_eq hnodup0 he0 he0p)]
        unfold movedEnt targetOf
        rw [he0p]
      rw [hA, hB, hC, List.map_append]
      simp [List.append_assoc]
    have hre : (done ++ [d]) ++ rest' = done ++ d :: rest' := by simp
    have hall' : ∀ x ∈ (done ++ [d]) ++ rest', sp.isPrefixOf x = true
        ∧ ¬ dp.isPrefixOf x = true ∧ ∃ e ∈ fs0.files, e.path = x := by
      intro x hx
      exact hall x (hre ▸ hx)
    have hnd' : ((done ++ [d]) ++ rest').Nodup := by
      rw [hre]
      exact hnd
    rw [← hre]
    exact ih (done ++ [d]) hall' hnd' _ hX

/-! ### Pipeline lemmas -/

theorem get_files_groups (walk : List FileEnt) (source dest : FPath) (csv : Bool) :
    (get_files walk source dest csv).groups = walk.foldl (gStep source dest) [] := by
  rw [get_files_eq]

theorem get_files_reads (walk : List FileEnt) (source dest : FPath) (csv : Bool) :
    (get_files walk source dest csv).reads
      = (walk.map (scanReadsFor source dest)).flatten := by
  rw [get_files_eq]

theorem get_files_log (walk : List FileEnt) (source dest : FPath) (csv : Bool) :
    (get_files walk source dest csv).log
      = (walk.map (scanRowsFor source dest csv)).flatten := by
  rw [get_files_eq]

theorem get_files_warnings (walk : List FileEnt) (source dest : FPath) (csv : Bool) :
    (get_files walk source dest csv).warnings
      = (walk.map (scanWarnFor source dest)).flatten := by
  rw [get_files_eq]

theorem walkFS_sub {fs : FS} {source : FPath} : ∀ e ∈ walkFS fs source, e ∈ fs.files :=
  fun e he => (List.mem_filter.mp he).1

theorem walkFS_mem {fs : FS} {source : FPath} {e : FileEnt} (he : e ∈ fs.files)
    (hs : is_safe_path e.path source = true) : e ∈ walkFS fs source :=
  List.mem_filter.mpr ⟨he, hs⟩

theorem walk_paths_nodup {fs : FS} {source : FPath}
    (h : (fs.files.map (fun e => e.path)).Nodup) :
    ((walkFS fs source).map (fun e => e.path)).Nodup :=
  h.sublist ((List.filter_sublist _).map _)

theorem eligible_safe_src {source dest : FPath} {e : FileEnt}
    (h : eligible source dest e = true) : is_safe_path e.path source = true := by
  simp only [eligible, Bool.and_eq_true] at h
  exact h.1.1.1

theorem eligible_not_dest {source dest : FPath} {e : FileEnt}
    (h : eligible source dest e = true) : is_safe_path e.path dest = false := by
  simp only [eligible, Bool.and_eq_true, Bool.not_eq_true'] at h
  exact h.1.1.2

theorem clean_safe_iff {p b : FPath} (hp : cleanPath p) :
    is_safe_path p b = (resolvePath b).isPrefixOf p := by
  unfold is_safe_path
  rw [resolvePath_of_clean hp]

theorem groups_sound_fs {fs : FS} {source dest : FPath} {csv : Bool}
    {g : String × List FPath}
    (hg : g ∈ (get_files (walkFS fs source) source dest csv).groups) :
    ∀ p ∈ g.2, ∃ e ∈ fs.files, e.path = p ∧ eligible source dest e = true
        ∧ g.1 = hash_file e.content := by
  intro p hp
  rw [get_files_groups] at hg
  rcases gfold_sound _ _ g hg p hp with ⟨g', hg', _⟩ | ⟨e, he, h1, h2, h3⟩
  · cases hg'
  · exact ⟨e, walkFS_sub e he, h1, h2, h3⟩

theorem duplicates_props {fs : FS} {source dest : FPath} {csv : Bool}
    (hclean : ∀ e ∈ fs.files, cleanPath e.path) :
    ∀ d ∈ get_duplicates (get_files (walkFS fs source) source dest csv).groups,
      (resolvePath source).isPrefixOf d = true
        ∧ ¬ (resolvePath dest).isPrefixOf d = true
        ∧ ∃ e ∈ fs.files, e.path = d := by
  intro d hd
  rw [mem_get_duplicates] at hd
  obtain ⟨g, hg, hdg⟩ := hd
  obtain ⟨e, he, hep, helig, _⟩ := groups_sound_fs hg d (List.mem_of_mem_drop hdg)
  have hcl : cleanPath d := hep ▸ hclean e he
  constructor
  · have := eligible_safe_src helig
    rw [hep] at this
    rw [clean_safe_iff hcl] at this
    exact this
  constructor
  · have := eligible_not_dest helig
    rw [hep] at this
    rw [clean_safe_iff hcl] at this
    intro hc
    rw [this] at hc
    cases hc
  · exact ⟨e, he, hep⟩

theorem scan_allPaths_nodup {fs : FS} {source dest : FPath} {csv : Bool}
    (h : (fs.files.map (fun e => e.path)).Nodup) :
    (allPaths (get_files (walkFS fs source) source dest csv).groups).Nodup := by
  rw [get_files_groups]
  exact groups_allPaths_nodup (walk_paths_nodup h)

theorem lookupGroup_mem_group {gs : Index} {k : String} {p : FPath}
    (h : p ∈ lookupGroup gs k) : (k, lookupGroup gs k) ∈ gs := by
  induction gs with
  | nil => cases h
  | cons g0 gs ih =>
    obtain ⟨k0, l0⟩ := g0
    by_cases h0 : k0 = k
    · subst h0
      simp only [lookupGroup, if_pos rfl]
      exact List.mem_cons_self _ _
    · simp only [lookupGroup, if_neg h0] at h ⊢
      exact List.mem_cons_of_mem _ (ih h)

theorem two_mem_of_one_lt_length {l : List FPath} (hnd : l.Nodup)
    (hlen : 1 < l.length) : ∃ a ∈ l, ∃ b ∈ l, a ≠ b := by
  cases l with
  | nil => simp at hlen
  | cons x t =>
    cases t with
    | nil => simp at hlen
    | cons y t' =>
      refine ⟨x, List.mem_cons_self _ _, y,
        List.mem_cons_of_mem _ (List.mem_cons_self _ _), ?_⟩
      intro hc
      rw [List.nodup_cons] at hnd
      exact hnd.1 (hc ▸ List.mem_cons_self _ _)

theorem mem_tail_of_ne_head {l : List FPath} {a x : FPath} {t : List FPath}
    (hl : l = x :: t) (ha : a ∈ l) (hne : a ≠ x) : a ∈ l.drop 1 := by
  subst hl
  rcases List.mem_cons.mp ha with h | h
  · exact absurd h hne
  · simpa using h

theorem second_pass_empty
    {fs0 fs1 : FS} {source dest : FPath} {csv : Bool}
    (hnodup1 : (fs1.files.map (fun e => e.path)).Nodup)
    (helig : ∀ e ∈ fs1.files, eligible source dest e = true →
        e ∈ fs0.files
          ∧ e.path ∉ get_duplicates (get_files (walkFS fs0 source) source dest csv).groups)
    (hnodup0 : (fs0.files.map (fun e => e.path)).Nodup) :
    get_duplicates (get_files (walkFS fs1 source) source dest csv).groups = [] := by
  -- any two distinct eligible entries of fs1 have different fingerprints
  have hdistinct : ∀ a ∈ fs1.files, ∀ b ∈ fs1.files,
      eligible source dest a = true → eligible source dest b = true →
      a.path ≠ b.path → hash_file a.content ≠ hash_file b.content := by
    intro a ha b hb heliga heligb hne hcontra
    obtain ⟨ha0, hadup⟩ := helig a ha heliga
    obtain ⟨hb0, hbdup⟩ := helig b hb heligb
    have hwa : a ∈ walkFS fs0 source := walkFS_mem ha0 (eligible_safe_src heliga)
    have hwb : b ∈ walkFS fs0 source := walkFS_mem hb0 (eligible_safe_src heligb)
    have hma : a.path ∈ lookupGroup
        ((walkFS fs0 source).foldl (gStep source dest) []) (hash_file a.content) :=
      gfold_complete _ [] a hwa heliga
    have hmb : b.path ∈ lookupGroup
        ((walkFS fs0 source).foldl (gStep source dest) []) (hash_file a.content) := by
      rw [hcontra]
      exact gfold_complete _ [] b hwb heligb
    set G1 := (walkFS fs0 source).foldl (gStep source dest) [] with hG1
    set l0 := lookupGroup G1 (hash_file a.content) with hl0
    have hgrp : (hash_file a.content, l0) ∈ G1 := lookupGroup_mem_group hma
    have hnd0 : (allPaths G1).Nodup := groups_allPaths_nodup (walk_paths_nodup hnodup0)
    have hlnd : l0.Nodup := group_list_nodup hnd0 hgrp
    cases hl : l0 with
    | nil => rw [hl] at hma; cases hma
    | cons x t =>
      by_cases hax : a.path = x
      · have hbt : b.path ∈ l0.drop 1 :=
          mem_tail_of_ne_head hl hmb (fun hc => hne (hax ▸ hc ▸ rfl))
        refine hbdup ?_
        rw [mem_get_duplicates]
        refine ⟨(hash_file a.content, l0), ?_, hbt⟩
        rw [get_files_groups]
        exact hgrp
      · have hat : a.path ∈ l0.drop 1 := mem_tail_of_ne_head hl hma hax
        refine hadup ?_
        rw [mem_get_duplicates]
        refine ⟨(hash_file a.content, l0), ?_, hat⟩
        rw [get_files_groups]
        exact hgrp
  -- hence every second-pass group has at most one member
  apply get_duplicates_eq_nil
  intro g hg
  by_contra hlen
  push_neg at hlen
  have hnd2 : (allPaths (get_files (walkFS fs1 source) source dest csv).groups).Nodup :=
    scan_allPaths_nodup hnodup1
  have hgnd : g.2.Nodup := group_list_nodup hnd2 hg
  obtain ⟨p, hp, q, hq, hpq⟩ := two_mem_of_one_lt_length hgnd hlen
  obtain ⟨ea, hea, heap, heaelig, heak⟩ := groups_sound_fs hg p hp
  obtain ⟨eb, heb, hebp, hebelig, hebk⟩ := groups_sound_fs hg q hq
  have hne : ea.path ≠ eb.path := by
    rw [heap, hebp]
    exact hpq
  exact hdistinct ea hea eb heb heaelig hebelig hne (heak ▸ hebk ▸ rfl)

theorem scanReadsFor_mem {source dest : FPath} {e' : FileEnt} {p : FPath}
    (h : p ∈ scanReadsFor source dest e') :
    p = e'.path ∧ is_safe_path e'.path source = true
      ∧ is_safe_path e'.path dest = false ∧ e'.isLink = false := by
  unfold scanReadsFor at h
  by_cases h1 : is_safe_path e'.path source = true
  · rw [if_neg (by simp [h1])] at h
    by_cases h2 : is_safe_path e'.path dest = true
    · rw [if_pos h2] at h
      cases h
    · rw [if_neg h2] at h
      by_cases h3 : e'.isLink = true
      · rw [if_pos h3] at h
        cases h
      · rw [if_neg h3] at h
        rw [List.mem_singleton] at h
        exact ⟨h, h1, Bool.not_eq_true _ ▸ h2, Bool.not_eq_true _ ▸ h3⟩
  · rw [if_pos (by simp [h1])] at h
    cases h

theorem run_pipeline_no_dups {fs : FS} {source dest : FPath} {csv : Bool}
    (h : get_duplicates (get_files (walkFS fs source) source dest csv).groups = []) :
    run_pipeline fs source dest csv =
      ⟨fs, [], 0, get_files (walkFS fs source) source dest csv, []⟩ := by
  unfold run_pipeline
  simp [h]

theorem moveInit_fs_eq (fs0 : FS) (sp dp : FPath) :
    (moveInit fs0).fs = ⟨fs0.files.filter (fun e => decide (¬ e.path ∈ ([] : List FPath)))
      ++ ([] : List FPath).map (relocEnt fs0 sp dp), fs0.destWritable⟩ := by
  show fs0 = _
  have hf : fs0.files.filter (fun e => decide (¬ e.path ∈ ([] : List FPath))) = fs0.files :=
    List.filter_eq_self.mpr (fun a _ => by simp)
  cases fs0 with
  | mk files dw => simp [hf]

theorem first_run_fs {fs0 : FS} {source dest : FPath} {csv : Bool}
    (hclean0 : ∀ e ∈ fs0.files, cleanPath e.path)
    (hnodup0 : (fs0.files.map (fun e => e.path)).Nodup)
    (hnopre0 : ∀ e1 ∈ fs0.files, ∀ e2 ∈ fs0.files,
        e1.path.isPrefixOf e2.path = true → e1.path = e2.path)
    (hde : destEmpty fs0 dest)
    (hw : fs0.destWritable = true)
    (hne : get_duplicates (get_files (walkFS fs0 source) source dest csv).groups ≠ []) :
    (run_pipeline fs0 source dest csv).fs =
      ⟨fs0.files.filter (fun e => decide (¬ e.path ∈
          get_duplicates (get_files (walkFS fs0 source) source dest csv).groups))
        ++ (get_duplicates (get_files (walkFS fs0 source) source dest csv).groups).map
            (relocEnt fs0 (resolvePath source) (resolvePath dest)),
       fs0.destWritable⟩ := by
  have hcore := @move_fold_core (resolvePath source) (resolvePath dest) csv fs0
    (cleanPath_resolvePath source) (cleanPath_resolvePath dest)
    hclean0 hnodup0 hnopre0 hde
    (get_duplicates (get_files (walkFS fs0 source) source dest csv).groups) []
    (by rw [List.nil_append]; exact duplicates_props hclean0)
    (by rw [List.nil_append]; exact get_duplicates_nodup (scan_allPaths_nodup hnodup0))
    (moveInit fs0) (moveInit_fs_eq fs0 _ _)
  simp only [List.nil_append] at hcore
  unfold run_pipeline
  cases hie : (get_duplicates (get_files (walkFS fs0 source) source dest csv).groups).isEmpty with
  | true =>
    exact absurd (List.isEmpty_iff.mp hie) hne
  | false =>
    have hmv : move_duplicates fs0
        (get_duplicates (get_files (walkFS fs0 source) source dest csv).groups)
        source dest csv =
        .ok ((get_duplicates (get_files (walkFS fs0 source) source dest csv).groups).foldl
          (moveStep (resolvePath source) (resolvePath dest) csv) (moveInit fs0)) := by
      unfold move_duplicates
      rw [if_neg (by simp [hw])]
    simp only [hie, hmv]
    exact hcore

/-- C4: running the full pipeline a second time on the state produced
by a first run finds zero duplicates and performs no moves; files whose
canonical path is contained in the destination root are skipped during
the second scan (never read, never indexed) and never moved, even when
the destination root is nested inside the source root. -/
theorem rerun_pipeline_idempotent (fs0 : FS) (source dest : FPath) (csv : Bool)
    (hwf : fs0.WF) (hde : destEmpty fs0 dest) (hw : fs0.destWritable = true) :
    (run_pipeline (run_pipeline fs0 source dest csv).fs source dest csv).duplicates = []
    ∧ (run_pipeline (run_pipeline fs0 source dest csv).fs source dest csv).fs
        = (run_pipeline fs0 source dest csv).fs
    ∧ (run_pipeline (run_pipeline fs0 source dest csv).fs source dest csv).moveLog = []
    ∧ ∀ e ∈ (run_pipeline fs0 source dest csv).fs.files,
        (resolvePath dest).isPrefixOf e.path = true →
          e.path ∉ (run_pipeline (run_pipeline fs0 source dest csv).fs source dest csv).scan.reads
          ∧ (∀ g ∈ (run_pipeline (run_pipeline fs0 source dest csv).fs
                source dest csv).scan.groups, e.path ∉ g.2)
          ∧ e ∈ (run_pipeline (run_pipeline fs0 source dest csv).fs source dest csv).fs.files := by
  obtain ⟨hclean0, hnodup0, hnopre0⟩ := hwf
  have key : (∀ e ∈ (run_pipeline fs0 source dest csv).fs.files, cleanPath e.path)
      ∧ ((run_pipeline fs0 source dest csv).fs.files.map (fun e => e.path)).Nodup
      ∧ (∀ e ∈ (run_pipeline fs0 source dest csv).fs.files,
          eligible source dest e = true → e ∈ fs0.files
            ∧ e.path ∉ get_duplicates
                (get_files (walkFS fs0 source) source dest csv).groups) := by
    by_cases hd : get_duplicates (get_files (walkFS fs0 source) source dest csv).groups = []
    · have hr1 : (run_pipeline fs0 source dest csv).fs = fs0 := by
        rw [run_pipeline_no_dups hd]
      rw [hr1]
      refine ⟨hclean0, hnodup0, fun e he _ => ⟨he, ?_⟩⟩
      rw [hd]
      simp
    · have hr1 := first_run_fs hclean0 hnodup0 hnopre0 hde hw hd
      refine ⟨?_, ?_, ?_⟩
      · intro e he
        rw [hr1] at he
        rcases List.mem_append.mp he with h | h
        · exact hclean0 e (List.mem_filter.mp h).1
        · rw [List.mem_map] at h
          obtain ⟨d, hd', rfl⟩ := h
          obtain ⟨_, _, e0, he0, he0p⟩ := duplicates_props hclean0 d hd'
          rw [relocEnt_path hnodup0 he0 he0p]
          exact cleanPath_append (cleanPath_resolvePath dest)
            (cleanPath_drop (he0p ▸ hclean0 e0 he0) _)
      · rw [hr1]
        dsimp only
        rw [List.map_append]
        apply List.Nodup.append
        · exact hnodup0.sublist ((List.filter_sublist _).map _)
        · rw [List.map_map]
          have hmapeq : (get_duplicates (get_files (walkFS fs0 source) source dest csv).groups).map
              ((fun e => e.path) ∘ relocEnt fs0 (resolvePath source) (resolvePath dest)) =
              (get_duplicates (get_files (walkFS fs0 source) source dest csv).groups).map
                (fun d => targetOf (resolvePath source) (resolvePath dest) d) := by
            apply List.map_congr_left
            intro d hd'
            simp only [Function.comp_apply]
            obtain ⟨_, _, e0, he0, he0p⟩ := duplicates_props hclean0 d hd'
            exact relocEnt_path hnodup0 he0 he0p
          rw [hmapeq]
          apply List.Nodup.map_on
          · intro x hx y hy hxy
            exact target_inj (duplicates_props hclean0 x hx).1
              (duplicates_props hclean0 y hy).1 hxy
          · exact get_duplicates_nodup (scan_allPaths_nodup hnodup0)
        · intro p hp hq
          rw [List.mem_map] at hp
          obtain ⟨e', he', rfl⟩ := hp
          have he0 := (List.mem_filter.mp he').1
          rw [List.map_map, List.mem_map] at hq
          simp only [Function.comp_apply] at hq
          obtain ⟨d, hd', hdq⟩ := hq
          obtain ⟨_, _, e0, he0', he0p⟩ := duplicates_props hclean0 d hd'
          have hpath : (relocEnt fs0 (resolvePath source) (resolvePath dest) d).path
              = targetOf (resolvePath source) (resolvePath dest) d :=
            relocEnt_path hnodup0 he0' he0p
          rw [hpath] at hdq
          refine hde e' he0 ?_
          rw [← hdq]
          exact dp_prefix_target _ _ d
      · intro e he helig
        rw [hr1] at he
        rcases List.mem_append.mp he with h | h
        · have hmf := List.mem_filter.mp h
          refine ⟨hmf.1, ?_⟩
          simpa using hmf.2
        · exfalso
          rw [List.mem_map] at h
          obtain ⟨d, hd', rfl⟩ := h
          obtain ⟨_, _, e0, he0, he0p⟩ := duplicates_props hclean0 d hd'
          have hpath : (relocEnt fs0 (resolvePath source) (resolvePath dest) d).path
              = targetOf (resolvePath source) (resolvePath dest) d :=
            relocEnt_path hnodup0 he0 he0p
          have hsafe : is_safe_path
              (relocEnt fs0 (resolvePath source) (resolvePath dest) d).path dest = true := by
            rw [hpath]
            unfold targetOf
            rw [clean_safe_iff (cleanPath_append (cleanPath_resolvePath dest)
              (cleanPath_drop (he0p ▸ hclean0 e0 he0) _))]
            exact isPrefixOf_append_self _ _
          have hnd' := eligible_not_dest helig
          rw [hnd'] at hsafe
          cases hsafe
  obtain ⟨hclean1, hnodup1, helig1⟩ := key
  have hsec : get_duplicates (get_files
      (walkFS (run_pipeline fs0 source dest csv).fs source) source dest csv).groups = [] :=
    second_pass_empty hnodup1 helig1 hnodup0
  have hr2 := run_pipeline_no_dups hsec
  refine ⟨?_, ?_, ?_, ?_⟩
  · rw [hr2]
  · rw [hr2]
  · rw [hr2]
  · intro e he hdp'
    have hcl := hclean1 e he
    have hsafe : is_safe_path e.path dest = true := by
      rw [clean_safe_iff hcl]
      exact hdp'
    refine ⟨?_, ?_, ?_⟩
    · rw [hr2]
      dsimp only
      rw [get_files_reads]
      intro hc
      rw [List.mem_flatten] at hc
      obtain ⟨l, hl, hpl⟩ := hc
      rw [List.mem_map] at hl
      obtain ⟨e', he', rfl⟩ := hl
      obtain ⟨hpe, _, hnd', _⟩ := scanReadsFor_mem hpl
      rw [hpe] at hsafe
      rw [hnd'] at hsafe
      cases hsafe
    · rw [hr2]
      dsimp only
      intro g hg hpg
      obtain ⟨e', _, hep', helig', _⟩ := groups_sound_fs hg e.path hpg
      have hnd' := eligible_not_dest helig'
      rw [hep'] at hnd'
      rw [hnd'] at hsafe
      cases hsafe
    · rw [hr2]
      exact he

/-! ### Further helpers -/

theorem flatten_map_eq_nil {α β : Type} (f : α → List β) :
    ∀ (l : List α), (∀ e ∈ l, f e = []) → (l.map f).flatten = [] := by
  intro l
  induction l with
  | nil => intro _; rfl
  | cons x xs ih =>
    intro h
    simp only [List.map_cons, List.flatten_cons, h x (List.mem_cons_self _ _),
      List.nil_append]
    exact ih (fun e he => h e (List.mem_cons_of_mem _ he))

theorem gStep_dest_skip {source dest : FPath} {e : FileEnt}
    (hsd : is_safe_path e.path dest = true) (gs : Index) :
    gStep source dest gs e = gs := by
  unfold gStep
  by_cases h1 : is_safe_path e.path source = true
  · simp [h1, hsd]
  · simp [h1]

theorem move_duplicates_ok_elim {fs : FS} {dups : List FPath}
    {source dest : FPath} {csv : Bool} {out : MoveState}
    (hok : move_duplicates fs dups source dest csv = .ok out) :
    out = dups.foldl (moveStep (resolvePath source) (resolvePath dest) csv)
      (moveInit fs) := by
  unfold move_duplicates at hok
  by_cases hw : fs.destWritable = true
  · rw [if_neg (by simp [hw])] at hok
    injection hok with h
    exact h.symm
  · rw [if_pos (by simpa using hw)] at hok
    cases hok

theorem moveFold_count {sp dp : FPath} :
    ∀ (dups : List FPath) (st : MoveState),
      (dups.foldl (moveStep sp dp true) st).log.length
          + (dups.foldl (moveStep sp dp true) st).warnings.length
        = st.log.length + st.warnings.length + dups.length := by
  intro dups
  induction dups with
  | nil => intro st; simp
  | cons d rest ih =>
    intro st
    rw [List.foldl_cons, ih, moveStep_count]
    simp only [List.length_cons]
    omega

theorem run_pipeline_scan (fs : FS) (source dest : FPath) (csv : Bool) :
    (run_pipeline fs source dest csv).scan
      = get_files (walkFS fs source) source dest csv := by
  unfold run_pipeline
  dsimp only
  split
  · rfl
  · split <;> rfl

/-! ### Claim theorems -/

/-- C1: for every fingerprint group of size n > 1 in a well-formed
index, `get_duplicates` selects exactly the n−1 paths other than the
first, preserving group iteration order and within-group order (the
result is the in-order concatenation of every group's tail); the
first-seen path of each group is never selected; a group of size 1
contributes nothing (its tail is empty). -/
theorem get_duplicates_selects_all_but_first (files : Index)
    (hw : (allPaths files).Nodup) :
    get_duplicates files = (files.map (fun g => g.2.drop 1)).flatten
    ∧ (∀ g ∈ files, ∀ p rest, g.2 = p :: rest → p ∉ get_duplicates files)
    ∧ (∀ g ∈ files, g.2.length = 1 → g.2.drop 1 = []) := by
  refine ⟨get_duplicates_eq files, ?_, ?_⟩
  · intro g hg p rest hrest
    apply survivors_disjoint_duplicates hw
    rw [List.mem_flatten]
    refine ⟨g.2.take 1, List.mem_map_of_mem _ hg, ?_⟩
    rw [hrest]
    simp
  · intro g _ hlen
    exact List.drop_eq_nil_of_le (by omega)

/-- C1 witness: on a concrete index with one group of three paths and
one singleton group, the selection facts hold. -/
theorem get_duplicates_selects_all_but_first_witness :
    (allPaths fxIndex).Nodup
    ∧ (get_duplicates fxIndex = (fxIndex.map (fun g => g.2.drop 1)).flatten
      ∧ (∀ g ∈ fxIndex, ∀ p rest, g.2 = p :: rest → p ∉ get_duplicates fxIndex)
      ∧ (∀ g ∈ fxIndex, g.2.length = 1 → g.2.drop 1 = [])) :=
  ⟨by decide, get_duplicates_selects_all_but_first fxIndex (by decide)⟩

/-- C5: the fingerprint is a pure function of byte content — equal to
the SHA-256 hex digest of the whole content, independent of path,
size, permissions and timestamps — and is a 64-character lowercase
hexadecimal string.  (Distinctness of digests for differing content is
collision resistance and holds only probabilistically; the claim
itself qualifies it as such.) -/
theorem fingerprint_pure_function_of_content (e1 e2 : FileEnt)
    (hc : e1.content = e2.content)
    (hl1 : e1.isLink = false) (hr1 : e1.readable = true)
    (hl2 : e2.isLink = false) (hr2 : e2.readable = true) :
    (∀ c : Bytes, hash_file c = sha256hex c)
    ∧ (∃ i1 i2, get_file_info e1 = .ok i1 ∧ get_file_info e2 = .ok i2
        ∧ i1.hash = i2.hash)
    ∧ (∀ c : Bytes, (hash_file c).length = 64
        ∧ ∀ ch ∈ (hash_file c).toList, isHexLowerChar ch = true) := by
  refine ⟨hash_file_eq, ?_, ?_⟩
  · refine ⟨⟨e1.size, e1.mtime, hash_file e1.content⟩,
      ⟨e2.size, e2.mtime, hash_file e2.content⟩,
      get_file_info_ok.mpr ⟨hl1, hr1, rfl⟩,
      get_file_info_ok.mpr ⟨hl2, hr2, rfl⟩, ?_⟩
    show hash_file e1.content = hash_file e2.content
    rw [hc]
  · intro c
    constructor
    · rw [hash_file_eq]
      exact sha256hex_length c
    · intro ch hch
      rw [hash_file_eq, sha256hex_toList] at hch
      exact sha256hexChars_hex c ch hch

/-- C5 witness: two concrete entries with equal content but different
path, size and timestamp. -/
theorem fingerprint_pure_function_of_content_witness :
    fxEnt1.content = fxEnt2.content
    ∧ (∃ i1 i2, get_file_info fxEnt1 = .ok i1 ∧ get_file_info fxEnt2 = .ok i2
        ∧ i1.hash = i2.hash) :=
  ⟨by decide, (fingerprint_pure_function_of_content fxEnt1 fxEnt2
    rfl rfl rfl rfl rfl).2.1⟩

/-- C9: a zero-byte file is fingerprinted to the fixed SHA-256
empty-input digest and its path is grouped under that digest in the
index like any other eligible file. -/
theorem zero_byte_file_digest (walk : List FileEnt) (source dest : FPath)
    (csv : Bool) (e : FileEnt) (he : e ∈ walk) (hc : e.content = [])
    (helig : eligible source dest e = true) :
    hash_file []
      = "e3b0c44298fc1c149afbf4c8996fb92427ae41e4649b934ca495991b7852b855"
    ∧ e.path ∈ lookupGroup (get_files walk source dest csv).groups
        "e3b0c44298fc1c149afbf4c8996fb92427ae41e4649b934ca495991b7852b855" := by
  have hdig : hash_file []
      = "e3b0c44298fc1c149afbf4c8996fb92427ae41e4649b934ca495991b7852b855" := by
    decide
  refine ⟨hdig, ?_⟩
  rw [get_files_groups]
  have hmem := gfold_complete walk [] e he helig
  rw [hc, hdig] at hmem
  exact hmem

/-- C9 witness: a concrete zero-byte file in a one-file walk. -/
theorem zero_byte_file_digest_witness :
    fxEmptyFile.content = [] ∧ eligible ["s"] ["d"] fxEmptyFile = true
    ∧ fxEmptyFile.path ∈ lookupGroup (get_files [fxEmptyFile] ["s"] ["d"] true).groups
        "e3b0c44298fc1c149afbf4c8996fb92427ae41e4649b934ca495991b7852b855" :=
  ⟨rfl, by decide,
    (zero_byte_file_digest [fxEmptyFile] ["s"] ["d"] true fxEmptyFile
      (List.mem_singleton.mpr rfl) rfl (by decide)).2⟩

/-- C10: when the source root's canonical path is contained in the
destination root's canonical path (equality included), the scan
returns the empty index, writes no audit rows, issues no warnings and
reads no file; consequently the pipeline selects nothing, moves
nothing and exits 0. -/
theorem source_inside_dest_scans_nothing (fs : FS) (source dest : FPath)
    (csv : Bool)
    (h : (resolvePath dest).isPrefixOf (resolvePath source) = true) :
    get_files (walkFS fs source) source dest csv = ⟨[], [], [], []⟩
    ∧ (run_pipeline fs source dest csv).fs = fs
    ∧ (run_pipeline fs source dest csv).duplicates = []
    ∧ (run_pipeline fs source dest csv).exitCode = 0 := by
  have hdest : ∀ e ∈ walkFS fs source, is_safe_path e.path dest = true := by
    intro e he
    have hsrc : is_safe_path e.path source = true := (List.mem_filter.mp he).2
    unfold is_safe_path at hsrc ⊢
    exact isPrefixOf_trans h hsrc
  have hscan : get_files (walkFS fs source) source dest csv = ⟨[], [], [], []⟩ := by
    rw [get_files_eq]
    have hgroups : (walkFS fs source).foldl (gStep source dest) [] = [] := by
      have gen : ∀ (l : List FileEnt), (∀ e ∈ l, is_safe_path e.path dest = true) →
          ∀ gs : Index, l.foldl (gStep source dest) gs = gs := by
        intro l
        induction l with
        | nil => intro _ gs; rfl
        | cons e es ih =>
          intro hl gs
          rw [List.foldl_cons, gStep_dest_skip (hl e (List.mem_cons_self _ _))]
          exact ih (fun e' he' => hl e' (List.mem_cons_of_mem _ he')) gs
      exact gen _ hdest []
    have hrows : ((walkFS fs source).map (scanRowsFor source dest csv)).flatten = [] := by
      apply flatten_map_eq_nil
      intro e he
      unfold scanRowsFor
      rw [if_neg (by simp [(List.mem_filter.mp he).2]), if_pos (hdest e he)]
    have hwarn : ((walkFS fs source).map (scanWarnFor source dest)).flatten = [] := by
      apply flatten_map_eq_nil
      intro e he
      unfold scanWarnFor
      rw [if_neg (by simp [(List.mem_filter.mp he).2]), if_pos (hdest e he)]
    have hreads : ((walkFS fs source).map (scanReadsFor source dest)).flatten = [] := by
      apply flatten_map_eq_nil
      intro e he
      unfold scanReadsFor
      rw [if_neg (by simp [(List.mem_filter.mp he).2]), if_pos (hdest e he)]
    rw [hgroups, hrows, hwarn, hreads]
  have hdups : get_duplicates (get_files (walkFS fs source) source dest csv).groups = [] := by
    rw [hscan]
    rfl
  have hrun := run_pipeline_no_dups hdups
  refine ⟨hscan, ?_, ?_, ?_⟩ <;> rw [hrun]

/-- C10 witness: source root nested strictly inside the destination
root. -/
theorem source_inside_dest_scans_nothing_witness :
    (resolvePath ["d"]).isPrefixOf (resolvePath ["d", "s"]) = true
    ∧ get_files (walkFS fxOne ["d", "s"]) ["d", "s"] ["d"] true = ⟨[], [], [], []⟩
    ∧ (run_pipeline fxOne ["d", "s"] ["d"] true).fs = fxOne :=
  ⟨by decide, (source_inside_dest_scans_nothing fxOne ["d", "s"] ["d"] true (by decide)).1,
    (source_inside_dest_scans_nothing fxOne ["d", "s"] ["d"] true (by decide)).2.1⟩

/-- C8: when the destination root lacks write access, `move_duplicates`
fails with the permission error before any per-duplicate work — the
same error for every duplicates list, including the empty one, showing
the check precedes the loop — the filesystem is unchanged by the
pipeline, and the process exits 1 whenever relocation was attempted. -/
theorem unwritable_dest_fails_before_any_move (fs : FS) (source dest : FPath)
    (csv : Bool) (hnw : fs.destWritable = false) :
    (∀ dups : List FPath, move_duplicates fs dups source dest csv
        = .error "No write permission for destination")
    ∧ (run_pipeline fs source dest csv).fs = fs
    ∧ ((run_pipeline fs source dest csv).duplicates ≠ []
        → (run_pipeline fs source dest csv).exitCode = 1) := by
  have hmv : ∀ dups : List FPath, move_duplicates fs dups source dest csv
      = .error "No write permission for destination" := by
    intro dups
    unfold move_duplicates
    rw [if_pos (by simp [hnw])]
  refine ⟨hmv, ?_, ?_⟩
  · unfold run_pipeline
    dsimp only
    split
    · rfl
    · rw [hmv]
  · unfold run_pipeline
    dsimp only
    split
    · intro hc
      simp_all
    · rw [hmv]
      intro _
      rfl

/-- C8 witness: a concrete filesystem with duplicates and an
unwritable destination root. -/
theorem unwritable_dest_fails_before_any_move_witness :
    fxReadOnly.destWritable = false
    ∧ move_duplicates fxReadOnly [] ["s"] ["d"] true
        = .error "No write permission for destination"
    ∧ (run_pipeline fxReadOnly ["s"] ["d"] true).fs = fxReadOnly :=
  ⟨rfl, (unwritable_dest_fails_before_any_move fxReadOnly ["s"] ["d"] true rfl).1 [],
    (unwritable_dest_fails_before_any_move fxReadOnly ["s"] ["d"] true rfl).2.1⟩

theorem eligible_not_link {source dest : FPath} {e : FileEnt}
    (h : eligible source dest e = true) : e.isLink = false := by
  simp only [eligible, Bool.and_eq_true, Bool.not_eq_true'] at h
  exact h.1.2

theorem get_file_info_link {e : FileEnt} (h : e.isLink = true) :
    get_file_info e = .error "Skipping symbolic link" := by
  unfold get_file_info
  simp [h]

theorem run_pipeline_fs_unwritable {fs : FS} {source dest : FPath} {csv : Bool}
    (hnw : fs.destWritable = false) : (run_pipeline fs source dest csv).fs = fs := by
  unfold run_pipeline
  dsimp only
  split
  · rfl
  · have hmv : move_duplicates fs
        (get_duplicates (get_files (walkFS fs source) source dest csv).groups)
        source dest csv = .error "No write permission for destination" := by
      unfold move_duplicates
      rw [if_pos (by simp [hnw])]
    rw [hmv]

/-- C2 counterexample: on a concrete filesystem where the destination
root already holds a regular file at the duplicate's computed target
path, `move_duplicates` records zero error rows, records one success
row, and the pre-existing destination file's content (`[9]`) is
replaced by the moved duplicate's content (`[1, 2]`) — refuting that
the move fails with `IOError`, that the failure is recorded as an
error, and that the pre-existing file is left unchanged. -/
theorem move_onto_existing_target_counterexample :
    ((move_duplicates fxCollide [["src", "b"]] ["src"] ["dst"] true).toOption.map
      (fun out => ((out.log.filter (fun r => r.status = "error")).length,
                   (out.log.filter (fun r => r.status = "success")).length,
                   out.fs.lookup ["dst", "b"])))
    = some (0, 1, some ⟨["dst", "b"], false, true, [1, 2], 2, 0⟩) := by
  decide

/-- C2 amended: for a duplicate whose computed target path already
exists as a regular file (not a directory) in the destination, the move
silently overwrites the pre-existing file via the rename — the only
file left at the target is the moved entry — the operation is recorded
as a success (never as an error), and the run continues with the
remaining duplicates. -/
theorem move_onto_existing_target_overwrites
    (fs : FS) (d : FPath) (rest : List FPath) (source dest : FPath)
    (e0 etgt : FileEnt)
    (hw : fs.destWritable = true)
    (h1 : is_safe_path (resolvePath d) (resolvePath source) = true)
    (h2 : is_safe_path ((resolvePath dest)
        ++ (resolvePath d).drop (resolvePath source).length) (resolvePath dest) = true)
    (hlk : fs.lookup (resolvePath d) = some e0)
    (htgt : etgt ∈ fs.files)
    (htgtp : etgt.path = (resolvePath dest)
        ++ (resolvePath d).drop (resolvePath source).length)
    (hnodir : isDirAt fs ((resolvePath dest)
        ++ (resolvePath d).drop (resolvePath source).length) = false) :
    ∃ st1,
      moveStep (resolvePath source) (resolvePath dest) true (moveInit fs) d = st1
      ∧ st1.fs.lookup ((resolvePath dest)
          ++ (resolvePath d).drop (resolvePath source).length)
          = some { e0 with path := ((resolvePath dest)
              ++ (resolvePath d).drop (resolvePath source).length) }
      ∧ st1.log = [movedRow (resolvePath d)
          ((resolvePath dest) ++ (resolvePath d).drop (resolvePath source).length)
          (if e0.readable ∧ ¬ e0.isLink then hash_file e0.content else "")
          e0.size e0.mtime]
      ∧ (∀ row ∈ st1.log, row.status = "success")
      ∧ (etgt ∈ st1.fs.files → etgt = { e0 with path := ((resolvePath dest)
          ++ (resolvePath d).drop (resolvePath source).length) })
      ∧ move_duplicates fs (d :: rest) source dest true
          = .ok (rest.foldl (moveStep (resolvePath source) (resolvePath dest) true) st1) := by
  have hlk' : (moveInit fs).fs.lookup (resolvePath d) = some e0 := hlk
  have h4 : moveFile (moveInit fs).fs (resolvePath d)
      ((resolvePath dest) ++ (resolvePath d).drop (resolvePath source).length) =
      .ok (⟨fs.files.filter (fun e' => e'.path ≠ resolvePath d
              ∧ e'.path ≠ (resolvePath dest)
                  ++ (resolvePath d).drop (resolvePath source).length) ++
            [{ e0 with path := ((resolvePath dest)
                ++ (resolvePath d).drop (resolvePath source).length) }],
           fs.destWritable⟩,
           (resolvePath dest) ++ (resolvePath d).drop (resolvePath source).length) := by
    unfold moveFile
    rw [hlk']
    dsimp only
    rw [if_neg (by simp [moveInit, hnodir])]
    rfl
  refine ⟨_, rfl, ?_, ?_, ?_, ?_, ?_⟩
  · rw [moveStep_move_ok h1 h2 hlk' h4]
    dsimp only
    unfold FS.lookup
    dsimp only
    rw [List.find?_append]
    have hleft : (fs.files.filter (fun e' => e'.path ≠ resolvePath d
        ∧ e'.path ≠ (resolvePath dest)
            ++ (resolvePath d).drop (resolvePath source).length)).find?
        (fun e => e.path = (resolvePath dest)
            ++ (resolvePath d).drop (resolvePath source).length) = none := by
      rw [List.find?_eq_none]
      intro x hx
      have := (List.mem_filter.mp hx).2
      rw [decide_eq_true_eq] at this
      simp [this.2]
    rw [hleft]
    simp
  · rw [moveStep_move_ok h1 h2 hlk' h4]
    simp [moveInit]
  · rw [moveStep_move_ok h1 h2 hlk' h4]
    intro row hrow
    simp only [moveInit, List.nil_append, if_true] at hrow
    rw [List.mem_singleton] at hrow
    subst hrow
    rfl
  · rw [moveStep_move_ok h1 h2 hlk' h4]
    intro hin
    dsimp only at hin
    rcases List.mem_append.mp hin with h | h
    · have := (List.mem_filter.mp h).2
      rw [decide_eq_true_eq] at this
      exact absurd htgtp this.2
    · exact List.mem_singleton.mp h
  · unfold move_duplicates
    rw [if_neg (by simp [hw]), List.foldl_cons]

/-- C2 amended witness: the concrete collision filesystem. -/
theorem move_onto_existing_target_overwrites_witness :
    fxCollide.lookup (resolvePath ["src", "b"])
        = some ⟨["src", "b"], false, true, [1, 2], 2, 0⟩
    ∧ ∃ st1,
      moveStep (resolvePath ["src"]) (resolvePath ["dst"]) true (moveInit fxCollide)
          ["src", "b"] = st1
      ∧ st1.fs.lookup ((resolvePath ["dst"])
          ++ (resolvePath ["src", "b"]).drop (resolvePath ["src"]).length)
          = some ⟨(resolvePath ["dst"])
              ++ (resolvePath ["src", "b"]).drop (resolvePath ["src"]).length,
              false, true, [1, 2], 2, 0⟩
      ∧ st1.log = [movedRow (resolvePath ["src", "b"])
          ((resolvePath ["dst"]) ++ (resolvePath ["src", "b"]).drop
            (resolvePath ["src"]).length)
          (if (true : Bool) ∧ ¬ (false : Bool) then hash_file [1, 2] else "") 2 0]
      ∧ (∀ row ∈ st1.log, row.status = "success")
      ∧ ((⟨["dst", "b"], false, true, [9], 1, 0⟩ : FileEnt) ∈ st1.fs.files →
          (⟨["dst", "b"], false, true, [9], 1, 0⟩ : FileEnt)
            = ⟨(resolvePath ["dst"])
                ++ (resolvePath ["src", "b"]).drop (resolvePath ["src"]).length,
                false, true, [1, 2], 2, 0⟩)
      ∧ move_duplicates fxCollide [["src", "b"]] ["src"] ["dst"] true
          = .ok (([] : List FPath).foldl
              (moveStep (resolvePath ["src"]) (resolvePath ["dst"]) true) st1) :=
  ⟨by decide,
    move_onto_existing_target_overwrites fxCollide ["src", "b"] [] ["src"] ["dst"]
      ⟨["src", "b"], false, true, [1, 2], 2, 0⟩ ⟨["dst", "b"], false, true, [9], 1, 0⟩
      rfl (by decide) (by decide) (by decide) (by decide) (by decide) (by decide)⟩

/-- C3: during the scan, only paths whose canonical form is contained
in the source root are ever opened for reading; during relocation,
every path read is contained in the source root and every path written
is contained in the destination root; any duplicate failing either
containment check is skipped with a recorded warning and no move is
performed for it. -/
theorem no_path_escapes_roots (walk : List FileEnt) (fs : FS) (dups : List FPath)
    (source dest : FPath) (csv : Bool) (out : MoveState)
    (hok : move_duplicates fs dups source dest csv = .ok out) :
    (∀ p ∈ (get_files walk source dest csv).reads, is_safe_path p source = true)
    ∧ (∀ p ∈ out.reads, is_safe_path p source = true)
    ∧ (∀ pr ∈ out.moves, is_safe_path pr.1 source = true
        ∧ is_safe_path pr.2 dest = true)
    ∧ (∀ d ∈ dups,
        ¬ (is_safe_path d source = true
            ∧ is_safe_path (targetOf (resolvePath source) (resolvePath dest)
                (resolvePath d)) dest = true) →
        resolvePath d ∈ out.warnings
          ∧ ∀ pr ∈ out.moves, pr.1 ≠ resolvePath d) := by
  have hout := move_duplicates_ok_elim hok
  subst hout
  have hsafety := @moveFold_safety (resolvePath source) (resolvePath dest) csv
    dups (moveInit fs) (fun p hp => absurd hp (List.not_mem_nil p))
    (fun pr hpr => absurd hpr (List.not_mem_nil pr))
  have hcondeq : ∀ p : FPath,
      (is_safe_path (resolvePath p) (resolvePath source) = true
        ∧ is_safe_path ((resolvePath dest)
            ++ (resolvePath p).drop (resolvePath source).length) (resolvePath dest) = true)
      ↔ (is_safe_path p source = true
        ∧ is_safe_path (targetOf (resolvePath source) (resolvePath dest)
            (resolvePath p)) dest = true) := by
    intro p
    rw [is_safe_path_resolve, is_safe_path_base_resolve]
    rw [show (resolvePath dest) ++ (resolvePath p).drop (resolvePath source).length
        = targetOf (resolvePath source) (resolvePath dest) (resolvePath p) from rfl]
    rw [is_safe_path_base_resolve]
  refine ⟨?_, ?_, ?_, ?_⟩
  · intro p hp
    rw [get_files_reads] at hp
    rw [List.mem_flatten] at hp
    obtain ⟨l, hl, hpl⟩ := hp
    rw [List.mem_map] at hl
    obtain ⟨e', _, rfl⟩ := hl
    obtain ⟨hpe, hsrc, _, _⟩ := scanReadsFor_mem hpl
    rw [hpe]
    exact hsrc
  · intro p hp
    have := hsafety.1 p hp
    rwa [is_safe_path_base_resolve] at this
  · intro pr hpr
    obtain ⟨hchk, hw2⟩ := hsafety.2 pr hpr
    rw [moveChecks, Bool.and_eq_true] at hchk
    constructor
    · have := hchk.1
      rwa [is_safe_path_base_resolve] at this
    · rwa [is_safe_path_base_resolve] at hw2
  · intro d hd hbad
    have hbad' : ¬ (is_safe_path (resolvePath d) (resolvePath source) = true
        ∧ is_safe_path ((resolvePath dest)
            ++ (resolvePath d).drop (resolvePath source).length)
          (resolvePath dest) = true) := by
      rw [hcondeq d]
      exact hbad
    refine ⟨moveFold_warnings dups _ d hd hbad', ?_⟩
    intro pr hpr hceq
    obtain ⟨hchk, _⟩ := hsafety.2 pr hpr
    rw [hceq, moveChecks, Bool.and_eq_true] at hchk
    have : is_safe_path (resolvePath d) (resolvePath source) = true
        ∧ is_safe_path ((resolvePath dest)
            ++ (resolvePath d).drop (resolvePath source).length)
          (resolvePath dest) = true := by
      refine ⟨hchk.1, ?_⟩
      exact hchk.2
    exact hbad' this

/-- C3 witness: a concrete duplicates list containing one safe path
and one path outside the source root. -/
theorem no_path_escapes_roots_witness :
    move_duplicates fxOne [["s", "x"], ["e", "y"]] ["s"] ["d"] true
      = .ok ([["s", "x"], ["e", "y"]].foldl
          (moveStep (resolvePath ["s"]) (resolvePath ["d"]) true) (moveInit fxOne))
    ∧ resolvePath ["e", "y"] ∈ ([["s", "x"], ["e", "y"]].foldl
        (moveStep (resolvePath ["s"]) (resolvePath ["d"]) true)
        (moveInit fxOne)).warnings :=
  ⟨rfl,
    ((no_path_escapes_roots [] fxOne [["s", "x"], ["e", "y"]] ["s"] ["d"] true _
      rfl).2.2.2 ["e", "y"] (by decide) (by decide)).1⟩

/-- C6: a per-file failure never aborts the batch.  A walked file that
fails fingerprinting (symbolic link or read error) contributes an
error row to the audit log and nothing to the index, and the scan of
the remaining files is unaffected; during relocation, every duplicate
— failed or not — yields exactly one recorded outcome (an audit row or
a skip warning) and the loop always runs to completion, returning
normally. -/
theorem per_file_failure_never_aborts
    (source dest : FPath) (xs ys : List FileEnt) (bad : FileEnt)
    (h1 : is_safe_path bad.path source = true)
    (h2 : is_safe_path bad.path dest = false)
    (h3 : bad.isLink = true ∨ bad.readable = false)
    (fs : FS) (dups : List FPath) (hw : fs.destWritable = true) :
    (∃ msg, get_file_info bad = .error msg
      ∧ (get_files (xs ++ bad :: ys) source dest true).groups
          = (get_files (xs ++ ys) source dest true).groups
      ∧ (get_files (xs ++ bad :: ys) source dest true).log
          = (get_files xs source dest true).log
              ++ [procErrRow bad.path msg]
              ++ (ys.map (scanRowsFor source dest true)).flatten)
    ∧ ∃ out, move_duplicates fs dups source dest true = .ok out
        ∧ out.log.length + out.warnings.length = dups.length := by
  obtain ⟨msg, hmsg⟩ := get_file_info_error.mp h3
  have heligbad : ¬ eligible source dest bad = true := by
    rcases h3 with h | h <;> simp [eligible, h]
  constructor
  · refine ⟨msg, hmsg, ?_, ?_⟩
    · rw [get_files_groups, get_files_groups, List.foldl_append, List.foldl_append,
        List.foldl_cons, gStep_of_not_eligible heligbad]
    · rw [get_files_log, get_files_log]
      have hbadrow : scanRowsFor source dest true bad = [procErrRow bad.path msg] := by
        unfold scanRowsFor
        rw [if_neg (by simp [h1]), if_neg (by simp [h2]), hmsg]
        rfl
      simp [hbadrow, List.append_assoc]
  · refine ⟨dups.foldl (moveStep (resolvePath source) (resolvePath dest) true)
      (moveInit fs), ?_, ?_⟩
    · unfold move_duplicates
      rw [if_neg (by simp [hw])]
    · rw [moveFold_count]
      simp [moveInit]

/-- C6 witness: a symbolic link between two good files, and a
relocation list with one nonexistent duplicate. -/
theorem per_file_failure_never_aborts_witness :
    (∃ msg, get_file_info fxLink = .error msg
      ∧ (get_files ([fxPre] ++ fxLink :: [fxPost]) ["s"] ["d"] true).groups
          = (get_files ([fxPre] ++ [fxPost]) ["s"] ["d"] true).groups
      ∧ (get_files ([fxPre] ++ fxLink :: [fxPost]) ["s"] ["d"] true).log
          = (get_files [fxPre] ["s"] ["d"] true).log
              ++ [procErrRow fxLink.path msg]
              ++ ([fxPost].map (scanRowsFor ["s"] ["d"] true)).flatten)
    ∧ ∃ out, move_duplicates ⟨[], true⟩ [["s", "nope"]] ["s"] ["d"] true = .ok out
        ∧ out.log.length + out.warnings.length = [["s", "nope"]].length :=
  per_file_failure_never_aborts ["s"] ["d"] [fxPre] [fxPost] fxLink
    (by decide) (by decide) (Or.inl rfl) ⟨[], true⟩ [["s", "nope"]] rfl

/-- C7: a symbolic link in the source tree is never opened for
hashing, never appears in any fingerprint group, and is never moved
(its entry survives the whole pipeline); when it passes the path
checks it produces a recorded skip — a console warning and, when the
audit log is configured, an error row — rather than a crash. -/
theorem symlink_never_read_or_moved (fs : FS) (source dest : FPath) (csv : Bool)
    (hwf : fs.WF) (hde : destEmpty fs dest)
    (e : FileEnt) (he : e ∈ fs.files) (hlink : e.isLink = true) :
    e.path ∉ (run_pipeline fs source dest csv).scan.reads
    ∧ (∀ g ∈ (run_pipeline fs source dest csv).scan.groups, e.path ∉ g.2)
    ∧ e ∈ (run_pipeline fs source dest csv).fs.files
    ∧ (is_safe_path e.path source = true → is_safe_path e.path dest = false →
        e.path ∈ (run_pipeline fs source dest csv).scan.warnings
        ∧ (csv = true →
            procErrRow e.path "Skipping symbolic link"
              ∈ (run_pipeline fs source dest csv).scan.log)) := by
  obtain ⟨hclean0, hnodup0, hnopre0⟩ := hwf
  refine ⟨?_, ?_, ?_, ?_⟩
  · rw [run_pipeline_scan, get_files_reads]
    intro hc
    rw [List.mem_flatten] at hc
    obtain ⟨l, hl, hpl⟩ := hc
    rw [List.mem_map] at hl
    obtain ⟨e', he', rfl⟩ := hl
    obtain ⟨hpe, _, _, hlink'⟩ := scanReadsFor_mem hpl
    have : e' = e := path_inj hnodup0 (walkFS_sub e' he') he hpe.symm
    rw [this] at hlink'
    rw [hlink] at hlink'
    cases hlink'
  · rw [run_pipeline_scan]
    intro g hg hpg
    obtain ⟨e', he', hep', helig', _⟩ := groups_sound_fs hg e.path hpg
    have heq : e' = e := path_inj hnodup0 he' he hep'
    have := eligible_not_link helig'
    rw [heq, hlink] at this
    cases this
  · by_cases hw : fs.destWritable = true
    · by_cases hd : get_duplicates
          (get_files (walkFS fs source) source dest csv).groups = []
      · rw [run_pipeline_no_dups hd]
        exact he
      · rw [first_run_fs hclean0 hnodup0 hnopre0 hde hw hd]
        apply List.mem_append_left
        rw [List.mem_filter]
        refine ⟨he, ?_⟩
        rw [decide_eq_true_eq]
        intro hc
        rw [mem_get_duplicates] at hc
        obtain ⟨g, hg, hdg⟩ := hc
        obtain ⟨e', he', hep', helig', _⟩ :=
          groups_sound_fs hg e.path (List.mem_of_mem_drop hdg)
        have heq : e' = e := path_inj hnodup0 he' he hep'
        have := eligible_not_link helig'
        rw [heq, hlink] at this
        cases this
    · rw [run_pipeline_fs_unwritable (Bool.eq_false_iff.mpr hw)]
      exact he
  · intro hs hd'
    have hwalk : e ∈ walkFS fs source := walkFS_mem he hs
    constructor
    · rw [run_pipeline_scan, get_files_warnings]
      rw [List.mem_flatten]
      refine ⟨scanWarnFor source dest e, List.mem_map_of_mem _ hwalk, ?_⟩
      unfold scanWarnFor
      rw [if_neg (by simp [hs]), if_neg (by simp [hd']), get_file_info_link hlink]
      exact List.mem_singleton.mpr rfl
    · intro hcsv
      rw [run_pipeline_scan, get_files_log]
      rw [List.mem_flatten]
      refine ⟨scanRowsFor source dest csv e, List.mem_map_of_mem _ hwalk, ?_⟩
      unfold scanRowsFor
      rw [if_neg (by simp [hs]), if_neg (by simp [hd']), get_file_info_link hlink,
        hcsv]
      exact List.mem_singleton.mpr rfl

/-- C7 witness: a concrete filesystem containing a symbolic link. -/
theorem symlink_never_read_or_moved_witness :
    (⟨["s", "ln"], true, true, [3], 1, 0⟩ : FileEnt) ∈ fxLinkFS.files
    ∧ (⟨["s", "ln"], true, true, [3], 1, 0⟩ : FileEnt).path
        ∉ (run_pipeline fxLinkFS ["s"] ["d"] true).scan.reads
    ∧ (⟨["s", "ln"], true, true, [3], 1, 0⟩ : FileEnt)
        ∈ (run_pipeline fxLinkFS ["s"] ["d"] true).fs.files :=
  ⟨by decide,
    (symlink_never_read_or_moved fxLinkFS ["s"] ["d"] true (by decide) (by decide)
      ⟨["s", "ln"], true, true, [3], 1, 0⟩ (by decide) rfl).1,
    (symlink_never_read_or_moved fxLinkFS ["s"] ["d"] true (by decide) (by decide)
      ⟨["s", "ln"], true, true, [3], 1, 0⟩ (by decide) rfl).2.2.1⟩

/-- C4 witness: a concrete filesystem with two identical files and a
distinct one; after the first run, the second run finds zero
duplicates and changes nothing. -/
theorem rerun_pipeline_idempotent_witness :
    FS.WF fxTriple ∧ destEmpty fxTriple ["dst"] ∧ fxTriple.destWritable = true
    ∧ (run_pipeline (run_pipeline fxTriple ["src"] ["dst"] true).fs
        ["src"] ["dst"] true).duplicates = []
    ∧ (run_pipeline (run_pipeline fxTriple ["src"] ["dst"] true).fs
        ["src"] ["dst"] true).fs = (run_pipeline fxTriple ["src"] ["dst"] true).fs :=
  ⟨by decide, by decide, rfl,
    (rerun_pipeline_idempotent fxTriple ["src"] ["dst"] true
      (by decide) (by decide) rfl).1,
    (rerun_pipeline_idempotent fxTriple ["src"] ["dst"] true
      (by decide) (by decide) rfl).2.1⟩

end FindDup
